import Mathlib

/-!
# Nano ID generator (`nanoid.c`, `nanoid_rand.h`)

A shallow embedding of the identifier generator, of the entropy helper, and of
the length handling of the two callers (`nanoid_lua.c`, `nanoid_main.c`).

Conventions of the embedding.

* Bytes, `size_t` and `uint32_t` values are natural numbers; where the C
  arithmetic can wrap, the wrap is written explicitly (`% 2 ^ 32`, `% 2 ^ 64`).
* The operating system is an explicit input: every call of `getrandom`
  consumes one `SysOutcome` from a list, and the outcomes that were not
  consumed are handed back, so that the number of calls made is visible.
* A function that is still looping when the supplied outcomes run out yields
  `none`.
* Stores into the caller's buffer are recorded in program order as
  `(index, symbol)` pairs.
-/

namespace Nanoid

/-! ## Constants -/

/-- The `NANOID_SIZE` constant of `nanoid.h`. -/
def NANOID_SIZE : Nat := 21

/-- The characters of the string literal that initialises `default_alphabet`. -/
def default_symbols : List Nat :=
  "ABCDEFGHIJKLMNOPQRSTUVWXYZabcdefghijklmnopqrstuvwxyz0123456789-_".toList.map Char.toNat

/-- The array `default_alphabet` of `nanoid.c`: the 64 symbols followed by the
terminating NUL of the string literal. -/
def default_alphabet : List Nat := default_symbols ++ [0]

/-! ## `roundup2` -/

/-- Leading zero bits of `x` among the bit positions `k-1, ..., 0`. -/
def clzAux : Nat → Nat → Nat
  | 0, _ => 0
  | k + 1, x => if x.testBit k then 0 else 1 + clzAux k x

/-- The builtin `__builtin_clz` on a 32-bit operand. -/
def builtin_clz (x : Nat) : Nat := clzAux 32 x

/-- The `__GNUC__`/`__clang__` branch of `roundup2`:
`2U << (31 - __builtin_clz((v - 1) | 1))`, for `v` other than 0 and 1. -/
def roundup2_clz (v : Nat) : Nat :=
  (2 <<< (31 - builtin_clz ((v - 1) ||| 1))) % 2 ^ 32

/-- The portable branch of `roundup2`: decrement, smear the top bit to the
right, increment (32-bit wrap on the final increment). -/
def roundup2_shift (v : Nat) : Nat :=
  let v := v - 1
  let v := v ||| (v >>> 1)
  let v := v ||| (v >>> 2)
  let v := v ||| (v >>> 4)
  let v := v ||| (v >>> 8)
  let v := v ||| (v >>> 16)
  (v + 1) % 2 ^ 32

/-- The function `roundup2` of `nanoid.c` on a 32-bit value; `gnuc` selects the
branch of the `#if defined(__GNUC__) || defined(__clang__)`. -/
def roundup2 (gnuc : Bool) (v : Nat) : Nat :=
  if v = 0 ∨ v = 1 then v
  else if gnuc then roundup2_clz v else roundup2_shift v

/-- The mask of `nanoid_generate_r`: `roundup2((uint32_t)alphacnt) - 1` in
32-bit unsigned arithmetic. -/
def computeMask (gnuc : Bool) (alphacnt : Nat) : Nat :=
  (roundup2 gnuc (alphacnt % 2 ^ 32) + 2 ^ 32 - 1) % 2 ^ 32

/-! ## The entropy system call -/

/-- What the operating system does on one call of `getrandom`. -/
inductive SysOutcome where
  /-- The call fails: it returns -1 and stores nothing. -/
  | fail
  /-- The call stores `data` at the start of the buffer and returns its length. -/
  | filled (data : List Nat)
  deriving DecidableEq, Repr

/-- The call `getrandom(buf, n, 0)`: the returned value and the buffer afterwards. -/
def getrandom (buf : List Nat) (n : Nat) : SysOutcome → Int × List Nat
  | .fail => (-1, buf)
  | .filled data =>
    let d := data.take n
    ((d.length : Int), d ++ buf.drop d.length)

/-! ## `nanoid_generate_r` -/

/-- The local state of the generation loop. -/
structure GenState where
  /-- The output cursor `len`. -/
  len : Nat
  /-- The stores `buf[index] = symbol` made so far, oldest first. -/
  writes : List (Nat × Nat)
  deriving DecidableEq, Repr

/-- How one pass of the `for` loop over the scratch array ends. -/
inductive Pass where
  /-- The statement `return buf` was reached. -/
  | returned (st : GenState)
  /-- The loop ran to `i = sizeof(bytes)`. -/
  | exhausted (st : GenState)
  deriving DecidableEq, Repr

/-- The loop `for (i = ...; i < sizeof(bytes); ++i)` of `nanoid_generate_r`, with
`n` iterations left, starting at index `i`.  An entry that the list `bytes` or
`alphabet` lacks reads as 0. -/
def forLoop (alphabet : List Nat) (alphacnt mask buflen : Nat) (bytes : List Nat) :
    Nat → Nat → GenState → Pass
  | 0, _, st => .exhausted st
  | n + 1, i, st =>
    let ai := bytes.getD i 0 &&& mask
    if ai ≥ alphacnt then
      forLoop alphabet alphacnt mask buflen bytes n (i + 1) st
    else
      let st1 : GenState :=
        { len := (st.len + 1) % 2 ^ 64
          writes := st.writes ++ [(st.len, alphabet.getD ai 0)] }
      if st1.len = buflen then .returned st1
      else forLoop alphabet alphacnt mask buflen bytes n (i + 1) st1

/-- The result of a call of `nanoid_generate_r`. -/
structure Result where
  /-- Whether `buf` was returned (`true`) or `NULL` (`false`). -/
  ok : Bool
  /-- The stores made into `buf`, oldest first. -/
  writes : List (Nat × Nat)
  /-- The system outcomes that were not consumed. -/
  rest : List SysOutcome
  deriving DecidableEq, Repr

/-- The loop `while (1)` of `nanoid_generate_r`: one `getrandom` call (its
return value is dropped) followed by one pass over the 32-byte scratch array. -/
def whileLoop (alphabet : List Nat) (alphacnt mask buflen : Nat) :
    List SysOutcome → List Nat → GenState → Option Result
  | [], _, _ => none
  | o :: rest, bytes, st =>
    let bytes1 := (getrandom bytes 32 o).2
    match forLoop alphabet alphacnt mask buflen bytes1 32 0 st with
    | .returned st1 => some { ok := true, writes := st1.writes, rest := rest }
    | .exhausted st1 => whileLoop alphabet alphacnt mask buflen rest bytes1 st1

/-- The function `nanoid_generate_r` of `nanoid.c`.  `stack` is the content of
the uninitialised scratch array `bytes` on entry, `alphabet = none` is the
`NULL` pointer, and `rand` lists the outcomes of the successive `getrandom`
calls.  The result is `none` when the loop is still running after the last
supplied outcome. -/
def nanoid_generate_r (gnuc : Bool) (stack : List Nat) (buflen : Nat)
    (alphabet : Option (List Nat)) (alphacnt : Nat) (rand : List SysOutcome) :
    Option Result :=
  let alphabet1 := match alphabet with
    | none => default_alphabet
    | some a => a
  let alphacnt1 := match alphabet with
    | none => default_alphabet.length - 1
    | some _ => alphacnt
  if alphacnt1 ≤ 1 ∨ alphacnt1 ≥ 256 then
    some { ok := false, writes := [], rest := rand }
  else
    let mask := computeMask gnuc alphacnt1
    whileLoop alphabet1 alphacnt1 mask buflen rand stack { len := 0, writes := [] }

/-! ## `nanoid_generate` -/

/-- The memory obtained from `mem` by performing the stores `ws` in order. -/
def applyWrites (mem : List Nat) (ws : List (Nat × Nat)) : List Nat :=
  ws.foldl (fun m w => m.set w.1 w.2) mem

/-- The function `nanoid_generate` of `nanoid.c`.  `sbuf` is the content of the
static buffer (`NANOID_SIZE + 1` bytes) on entry; the result is `none` while
the inner call is still looping, `some none` for `NULL`, and `some (some b)` for
the static buffer with content `b`. -/
def nanoid_generate (gnuc : Bool) (stack sbuf : List Nat)
    (alphabet : Option (List Nat)) (alphacnt : Nat) (rand : List SysOutcome) :
    Option (Option (List Nat)) :=
  match nanoid_generate_r gnuc stack NANOID_SIZE alphabet alphacnt rand with
  | none => none
  | some r =>
    if r.ok = false then some none
    else some (some ((applyWrites sbuf r.writes).set NANOID_SIZE 0))

/-! ## Auxiliary definitions for the proofs -/

/-- The five shift-or steps of the portable branch of `roundup2`. -/
def smear (x : Nat) : Nat :=
  let v := x
  let v := v ||| (v >>> 1)
  let v := v ||| (v >>> 2)
  let v := v ||| (v >>> 4)
  let v := v ||| (v >>> 8)
  let v := v ||| (v >>> 16)
  v

/-- Bits of `x` reach `z` from up to `n` positions higher. -/
def Smeared (x z n : Nat) : Prop :=
  ∀ i j, j < n → x.testBit (i + j) = true → z.testBit i = true

/-- The state a pass of the `for` loop ends in. -/
def Pass.state : Pass → GenState
  | .returned st => st
  | .exhausted st => st

/-- The 32 scratch bytes one pass of the `for` loop reads, in reading order. -/
def window (bytes : List Nat) : List Nat :=
  (List.range' 0 32).map (fun i => bytes.getD i 0)

/-- The successive windows read when the outcomes `rand` are consumed in order,
starting from scratch content `bytes`. -/
def windows : List Nat → List SysOutcome → List (List Nat)
  | _, [] => []
  | bytes, o :: rest =>
    window (getrandom bytes 32 o).2 :: windows (getrandom bytes 32 o).2 rest

/-- Reference definition of the symbols a byte sequence yields: `alphabet[b & M]`
over exactly the bytes `b` with `(b & M) < A`, in order. -/
def referenceSymbols (alphabet : List Nat) (alphacnt mask : Nat) (bs : List Nat) : List Nat :=
  (bs.filter (fun b => b &&& mask < alphacnt)).map (fun b => alphabet.getD (b &&& mask) 0)

/-- The alphabet a call draws from: the 64 default symbols for `NULL`. -/
def symbolsOf : Option (List Nat) → List Nat
  | none => default_symbols
  | some a => a

/-- The count a call works with: 64 for `NULL`, the argument otherwise. -/
def countOf : Option (List Nat) → Nat → Nat
  | none, _ => 64
  | some _, alphacnt => alphacnt

/-- Length of the C string stored in `b`: the bytes before the first NUL. -/
def strlen (b : List Nat) : Nat := (b.takeWhile (fun c => c ≠ 0)).length

/-! ## `generate_randombytes` (`nanoid_rand.h`) -/

/-- The error numbers the read loop tells apart. -/
inductive Errno where
  | EAGAIN
  | EWOULDBLOCK
  | EINTR
  | other (code : Nat)
  deriving DecidableEq, Repr

/-- What the operating system does on one call of `read` on the device. -/
inductive ReadOutcome where
  /-- The call returns -1 and sets `errno`. -/
  | error (errno : Errno)
  /-- The call stores `data` and returns its length. -/
  | got (data : List Nat)
  deriving DecidableEq, Repr

/-- The branch of `generate_randombytes` selected at build time, together with
what the operating system does on the calls that branch makes. -/
inductive Facility where
  /-- Built with `HAVE_GETENTROPY`. -/
  | getentropy (o : SysOutcome)
  /-- Built with `HAVE_GETRANDOM`. -/
  | getrandom (o : SysOutcome)
  /-- Built with `HAVE_ARC4RANDOM_BUF`. -/
  | arc4random_buf (data : List Nat)
  /-- Built with none of them: `open` returns `fd`, the `read` calls behave as `reads`. -/
  | urandom (fd : Int) (reads : List ReadOutcome)
  deriving DecidableEq, Repr

/-- The call `getentropy(buf, n)`: 0 with the buffer filled, or -1. -/
def getentropy (buf : List Nat) (n : Nat) : SysOutcome → Int × List Nat
  | .fail => (-1, buf)
  | .filled data =>
    let d := data.take n
    (0, d ++ buf.drop d.length)

/-- The call `arc4random_buf(buf, n)`: the buffer afterwards. -/
def arc4random_buf (buf : List Nat) (n : Nat) (data : List Nat) : List Nat :=
  let d := data.take n
  d ++ buf.drop d.length

/-- The conversion `(int)` of a `ssize_t` value. -/
def castInt (x : Int) : Int := (x + 2 ^ 31) % 2 ^ 32 - 2 ^ 31

/-- The loop `while (o < n)` of the `/dev/urandom` branch; the result is the
value of `ret` and the buffer at label `out`, or `none` when the loop is still
running after the last supplied `read` outcome. -/
def readLoop (n : Nat) : List ReadOutcome → List Nat → Nat → Option (Int × List Nat)
  | [], buf, o => if o < n then none else some (0, buf)
  | r :: rest, buf, o =>
    if o < n then
      match r with
      | .error e =>
        if e = Errno.EAGAIN ∨ e = Errno.EWOULDBLOCK ∨ e = Errno.EINTR then
          readLoop n rest buf o
        else some (-1, buf)
      | .got data =>
        let d := data.take (n - o)
        readLoop n rest (buf.take o ++ d ++ buf.drop (o + d.length)) (o + d.length)
    else some (0, buf)

/-- The result of a call of `generate_randombytes`. -/
structure RandResult where
  /-- The value returned. -/
  ret : Int
  /-- The buffer afterwards. -/
  buf : List Nat
  /-- The descriptor passed to `close`, if any. -/
  closed : Option Int
  deriving DecidableEq, Repr

/-- The function `generate_randombytes` of `nanoid_rand.h`. -/
def generate_randombytes (f : Facility) (buf : List Nat) (n : Nat) : Option RandResult :=
  match f with
  | .getentropy o =>
    let c := getentropy buf n o
    some { ret := c.1, buf := c.2, closed := none }
  | .getrandom o =>
    let c := getrandom buf n o
    some { ret := castInt c.1, buf := c.2, closed := none }
  | .arc4random_buf data =>
    some { ret := 0, buf := arc4random_buf buf n data, closed := none }
  | .urandom fd reads =>
    if fd = -1 then some { ret := -1, buf := buf, closed := none }
    else
      match readLoop n reads buf 0 with
      | none => none
      | some (ret, b) =>
        some { ret := ret, buf := b, closed := if fd ≥ 0 then some fd else none }

/-! ## The loop observed when the supplied outcomes are used up -/

/-- The loop `while (1)` of `nanoid_generate_r` as in `whileLoop`, but keeping
the state that the loop has reached when the supplied outcomes are used up,
where `whileLoop` yields `none`. -/
def runPasses (alphabet : List Nat) (alphacnt mask buflen : Nat) :
    List SysOutcome → List Nat → GenState → Pass
  | [], _, st => .exhausted st
  | o :: rest, bytes, st =>
    let bytes1 := (getrandom bytes 32 o).2
    match forLoop alphabet alphacnt mask buflen bytes1 32 0 st with
    | .returned st1 => .returned st1
    | .exhausted st1 => runPasses alphabet alphacnt mask buflen rest bytes1 st1

/-! ## The callers (`nanoid_lua.c`, `nanoid_main.c`) -/

/-- Why a caller gives up. -/
inductive Failure where
  /-- The call of `malloc` returned `NULL`. -/
  | outOfMemory
  /-- The argument of `-l` was refused. -/
  | invalidLength
  /-- The call of `nanoid_generate_r` returned `NULL`. -/
  | generateFailed
  deriving DecidableEq, Repr

/-- How a call of a caller ends. -/
inductive CallerResult where
  /-- The call of `nanoid_generate_r` is still looping. -/
  | looping
  /-- The caller raises an error (`luaL_error`, or a message and `exit(1)`). -/
  | failed (f : Failure)
  /-- The call `lua_pushnil(L)`. -/
  | nil
  /-- The call `lua_pushlstring(L, buf, length)`: the `length` bytes copied. -/
  | pushed (s : List Nat)
  /-- The call `printf("%.*s\n", (int)length, buf)`: its precision and buffer. -/
  | printed (precision : Int) (buf : List Nat)
  deriving DecidableEq, Repr

/-- The function `l_generate` of `nanoid_lua.c`.  `arg1` is the optional integer
argument, `arg2` the optional string argument, and `heap` what `malloc(length)`
returns: `none` for `NULL`, otherwise the content of the allocation. -/
def l_generate (gnuc : Bool) (stack : List Nat) (arg1 : Option Int)
    (arg2 : Option (List Nat)) (heap : Option (List Nat)) (rand : List SysOutcome) :
    CallerResult :=
  let length : Nat :=
    ((match arg1 with
      | none => (NANOID_SIZE : Int)
      | some n => n) % 2 ^ 64).toNat
  let alphacnt : Nat := match arg2 with
    | none => 0
    | some s => s.length
  match heap with
  | none => .failed .outOfMemory
  | some buf =>
    match nanoid_generate_r gnuc stack length arg2 alphacnt rand with
    | none => .looping
    | some r =>
      if r.ok = false then .nil
      else .pushed ((applyWrites buf r.writes).take length)

/-- What `strtoul(optarg, &endp, 10)` yields on the argument of `-l`. -/
structure Strtoul where
  /-- The value returned. -/
  value : Nat
  /-- Whether `endp == optarg`. -/
  endAtStart : Bool
  /-- The character `*endp`. -/
  endChar : Nat
  deriving DecidableEq, Repr

/-- The function `cmd_generate` of `nanoid_main.c` on a command line with at
most one `-a` and one `-l` option and nothing else.  `optA` is the argument of
`-a` as it lies in memory (with its terminating NUL), `optL` the conversion of
the argument of `-l`, and `heap` what `malloc(length)` returns. -/
def cmd_generate (gnuc : Bool) (stack : List Nat) (optA : Option (List Nat))
    (optL : Option Strtoul) (heap : Option (List Nat)) (rand : List SysOutcome) :
    CallerResult :=
  let checked : Option Nat := match optL with
    | none => some NANOID_SIZE
    | some p =>
      if p.value % 2 ^ 64 = 0 ∨ p.endAtStart = true ∨ p.endChar ≠ 0 then none
      else some (p.value % 2 ^ 64)
  match checked with
  | none => .failed .invalidLength
  | some length =>
    match heap with
    | none => .failed .outOfMemory
    | some buf =>
      let alphacnt : Nat := match optA with
        | none => 0
        | some s => strlen s
      match nanoid_generate_r gnuc stack length optA alphacnt rand with
      | none => .looping
      | some r =>
        if r.ok = false then .failed .generateFailed
        else .printed (castInt (length : Int)) (applyWrites buf r.writes)

set_option maxRecDepth 100000

/-! ## Facts about `roundup2` -/

theorem log2_eq_of_bounds {y m : Nat} (h1 : 2 ^ m ≤ y) (h2 : y < 2 ^ (m + 1)) :
    y.log2 = m := by
  have hy : y ≠ 0 := by
    have := Nat.two_pow_pos m
    omega
  have a : y.log2 < m + 1 := (Nat.log2_lt hy).2 h2
  have b : ¬ y.log2 < m := fun h => by
    have := (Nat.log2_lt hy).1 h
    omega
  omega

theorem testBit_log2_self {x : Nat} (hx : x ≠ 0) : x.testBit x.log2 = true := by
  have h1 : 2 ^ x.log2 ≤ x := Nat.log2_self_le hx
  have h2 : x < 2 ^ (x.log2 + 1) := Nat.lt_log2_self
  rw [Nat.testBit_to_div_mod]
  have h3 : x / 2 ^ x.log2 = 1 := by
    apply Nat.div_eq_of_lt_le
    · simpa using h1
    · rw [pow_succ] at h2
      omega
  simp [h3]

theorem clzAux_eq (k x : Nat) (hx : x ≠ 0) (h : x < 2 ^ k) :
    clzAux k x = k - 1 - x.log2 := by
  induction k with
  | zero => simp at h; omega
  | succ k ih =>
    unfold clzAux
    by_cases hb : x.testBit k = true
    · have h1 : 2 ^ k ≤ x := Nat.testBit_implies_ge hb
      have := log2_eq_of_bounds h1 h
      simp [hb, this]
    · have hlt : x < 2 ^ k := by
        by_contra hge
        have hge : 2 ^ k ≤ x := Nat.le_of_not_lt hge
        have := log2_eq_of_bounds hge h
        have := testBit_log2_self hx
        simp_all
      have hl : x.log2 < k := (Nat.log2_lt hx).2 hlt
      rw [if_neg hb, ih hlt]
      omega

theorem builtin_clz_eq (x : Nat) (hx : x ≠ 0) (h : x < 2 ^ 32) :
    31 - builtin_clz x = x.log2 := by
  unfold builtin_clz
  rw [clzAux_eq 32 x hx h]
  have : x.log2 < 32 := (Nat.log2_lt hx).2 h
  omega

theorem log2_lor_one (y : Nat) (hy : y ≠ 0) : (y ||| 1).log2 = y.log2 := by
  apply log2_eq_of_bounds
  · apply Nat.testBit_implies_ge
    rw [Nat.testBit_or, testBit_log2_self hy]
    rfl
  · apply Nat.or_lt_two_pow Nat.lt_log2_self
    exact Nat.one_lt_two_pow (by omega)

theorem roundup2_clz_eq (v : Nat) (hv : 2 ≤ v) (h : v < 2 ^ 32) :
    roundup2_clz v = 2 ^ ((v - 1).log2 + 1) % 2 ^ 32 := by
  unfold roundup2_clz
  have hy : v - 1 ≠ 0 := by omega
  have hlt : (v - 1) ||| 1 < 2 ^ 32 :=
    Nat.or_lt_two_pow (by omega) (by norm_num)
  have hne : (v - 1) ||| 1 ≠ 0 := by
    have hb : ((v - 1) ||| 1).testBit 0 = true := by
      rw [Nat.testBit_or]
      simp
    have := Nat.testBit_implies_ge hb
    omega
  rw [builtin_clz_eq _ hne hlt, log2_lor_one _ hy, Nat.shiftLeft_eq, pow_succ _ ((v - 1).log2),
    mul_comm]

theorem smeared_step {x z n : Nat} (h : Smeared x z n) :
    Smeared x (z ||| (z >>> n)) (2 * n) := by
  intro i j hj hb
  rw [Nat.testBit_or, Nat.testBit_shiftRight]
  by_cases hjn : j < n
  · simp [h i j hjn hb]
  · have : x.testBit (n + i + (j - n)) = true := by
      have e : n + i + (j - n) = i + j := by omega
      rw [e]; exact hb
    simp [h (n + i) (j - n) (by omega) this]

theorem smear_eq (x : Nat) (hx : x ≠ 0) (h : x < 2 ^ 32) :
    smear x = 2 ^ (x.log2 + 1) - 1 := by
  obtain ⟨v1, e1⟩ : ∃ v1, v1 = x ||| (x >>> 1) := ⟨_, rfl⟩
  obtain ⟨v2, e2⟩ : ∃ v2, v2 = v1 ||| (v1 >>> 2) := ⟨_, rfl⟩
  obtain ⟨v3, e3⟩ : ∃ v3, v3 = v2 ||| (v2 >>> 4) := ⟨_, rfl⟩
  obtain ⟨v4, e4⟩ : ∃ v4, v4 = v3 ||| (v3 >>> 8) := ⟨_, rfl⟩
  obtain ⟨v5, e5⟩ : ∃ v5, v5 = v4 ||| (v4 >>> 16) := ⟨_, rfl⟩
  have e : smear x = v5 := by
    subst e1 e2 e3 e4 e5
    rfl
  have hl : x.log2 < 32 := (Nat.log2_lt hx).2 h
  have hb : x < 2 ^ (x.log2 + 1) := Nat.lt_log2_self
  have shr : ∀ (z s : Nat), z < 2 ^ (x.log2 + 1) → z ||| (z >>> s) < 2 ^ (x.log2 + 1) := by
    intro z s hz
    apply Nat.or_lt_two_pow hz
    rw [Nat.shiftRight_eq_div_pow]
    exact lt_of_le_of_lt (Nat.div_le_self _ _) hz
  have b1 : v1 < 2 ^ (x.log2 + 1) := by rw [e1]; exact shr x 1 hb
  have b2 : v2 < 2 ^ (x.log2 + 1) := by rw [e2]; exact shr v1 2 b1
  have b3 : v3 < 2 ^ (x.log2 + 1) := by rw [e3]; exact shr v2 4 b2
  have b4 : v4 < 2 ^ (x.log2 + 1) := by rw [e4]; exact shr v3 8 b3
  have b5 : v5 < 2 ^ (x.log2 + 1) := by rw [e5]; exact shr v4 16 b4
  have s0 : Smeared x x 1 := by
    intro i j hj hbit
    have : j = 0 := by omega
    subst this
    simpa using hbit
  have s1 : Smeared x v1 2 := by rw [e1]; exact smeared_step s0
  have s2 : Smeared x v2 4 := by rw [e2]; exact smeared_step s1
  have s3 : Smeared x v3 8 := by rw [e3]; exact smeared_step s2
  have s4 : Smeared x v4 16 := by rw [e4]; exact smeared_step s3
  have s5 : Smeared x v5 32 := by rw [e5]; exact smeared_step s4
  rw [e]
  apply Nat.eq_of_testBit_eq
  intro i
  rw [Nat.testBit_two_pow_sub_one]
  by_cases hi : i < x.log2 + 1
  · have hbit : x.testBit (i + (x.log2 - i)) = true := by
      have e : i + (x.log2 - i) = x.log2 := by omega
      rw [e]; exact testBit_log2_self hx
    simp [hi, s5 i (x.log2 - i) (by omega) hbit]
  · have : v5 < 2 ^ i :=
      lt_of_lt_of_le b5 (Nat.pow_le_pow_right (by decide) (by omega))
    simp [hi, Nat.testBit_lt_two_pow this]

theorem roundup2_shift_eq (v : Nat) (hv : 2 ≤ v) (h : v < 2 ^ 32) :
    roundup2_shift v = 2 ^ ((v - 1).log2 + 1) % 2 ^ 32 := by
  have hx : v - 1 ≠ 0 := by omega
  have e : roundup2_shift v = (smear (v - 1) + 1) % 2 ^ 32 := rfl
  rw [e, smear_eq (v - 1) hx (by omega)]
  have : 0 < 2 ^ ((v - 1).log2 + 1) := Nat.two_pow_pos _
  congr 1
  omega

/-- Both branches of `roundup2` compute `2 ^ (log2 (v - 1) + 1)`, cut to 32 bits. -/
theorem roundup2_eq (gnuc : Bool) (v : Nat) (hv : 2 ≤ v) (h : v < 2 ^ 32) :
    roundup2 gnuc v = 2 ^ ((v - 1).log2 + 1) % 2 ^ 32 := by
  unfold roundup2
  rw [if_neg (by omega)]
  cases gnuc
  · simpa using roundup2_shift_eq v hv h
  · simpa using roundup2_clz_eq v hv h

theorem roundup2_variants (v : Nat) (h : v < 2 ^ 32) :
    roundup2 true v = roundup2 false v := by
  by_cases hv : 2 ≤ v
  · rw [roundup2_eq true v hv h, roundup2_eq false v hv h]
  · unfold roundup2
    rw [if_pos (by omega), if_pos (by omega)]

/-! ## The generation loop -/

theorem referenceSymbols_nil (alphabet : List Nat) (A M : Nat) :
    referenceSymbols alphabet A M [] = [] := rfl

theorem referenceSymbols_cons (alphabet : List Nat) (A M b : Nat) (bs : List Nat) :
    referenceSymbols alphabet A M (b :: bs) =
      if b &&& M < A then alphabet.getD (b &&& M) 0 :: referenceSymbols alphabet A M bs
      else referenceSymbols alphabet A M bs := by
  unfold referenceSymbols
  by_cases h : b &&& M < A <;> simp [List.filter_cons, h]

theorem referenceSymbols_append (alphabet : List Nat) (A M : Nat) (xs ys : List Nat) :
    referenceSymbols alphabet A M (xs ++ ys) =
      referenceSymbols alphabet A M xs ++ referenceSymbols alphabet A M ys := by
  unfold referenceSymbols
  simp

theorem referenceSymbols_mem (alphabet : List Nat) (A M : Nat) (bs : List Nat) (s : Nat)
    (h : s ∈ referenceSymbols alphabet A M bs) :
    ∃ j, j < A ∧ s = alphabet.getD j 0 := by
  unfold referenceSymbols at h
  simp only [List.mem_map, List.mem_filter, decide_eq_true_eq] at h
  obtain ⟨b, ⟨_, hb⟩, rfl⟩ := h
  exact ⟨b &&& M, hb, rfl⟩

/-- One pass of the `for` loop, in closed form, while the cursor is below
`buflen`. -/
theorem forLoop_spec (alphabet : List Nat) (A M buflen : Nat) (bytes : List Nat)
    (hb : buflen < 2 ^ 64) (n i : Nat) (st : GenState) (hlen : st.len < buflen) :
    forLoop alphabet A M buflen bytes n i st =
      if st.len +
          (referenceSymbols alphabet A M
            ((List.range' i n).map (fun k => bytes.getD k 0))).length < buflen then
        .exhausted
          { len := st.len +
              (referenceSymbols alphabet A M
                ((List.range' i n).map (fun k => bytes.getD k 0))).length
            writes := st.writes ++ List.enumFrom st.len
              (referenceSymbols alphabet A M
                ((List.range' i n).map (fun k => bytes.getD k 0))) }
      else
        .returned
          { len := buflen
            writes := st.writes ++ List.enumFrom st.len
              ((referenceSymbols alphabet A M
                ((List.range' i n).map (fun k => bytes.getD k 0))).take (buflen - st.len)) } := by
  induction n generalizing i st with
  | zero =>
    simp [forLoop, referenceSymbols_nil, hlen]
  | succ n ih =>
    rw [List.range'_succ, List.map_cons, referenceSymbols_cons]
    unfold forLoop
    by_cases hacc : bytes.getD i 0 &&& M < A
    · have hge : ¬ (bytes.getD i 0 &&& M ≥ A) := by omega
      simp only [hge, if_false, hacc, if_true]
      have hmod : (st.len + 1) % 2 ^ 64 = st.len + 1 := Nat.mod_eq_of_lt (by omega)
      rw [hmod]
      by_cases hfin : st.len + 1 = buflen
      · have e : buflen - st.len = 1 := by omega
        simp only [hfin, if_true, List.length_cons, e]
        rw [if_neg (by omega)]
        simp [List.enumFrom]
      · rw [if_neg hfin]
        rw [ih (i + 1) _ (by simp; omega)]
        simp only [List.length_cons]
        have e1 : ∀ k : Nat, st.len + 1 + k = st.len + (k + 1) := by intro k; omega
        have e2 : buflen - st.len = (buflen - (st.len + 1)) + 1 := by omega
        simp only [e1]
        rw [e2, List.take_succ_cons]
        simp [List.enumFrom, List.append_assoc]
    · have hge : bytes.getD i 0 &&& M ≥ A := by omega
      simp only [hge, if_true, hacc, if_false]
      exact ih (i + 1) st hlen

theorem windows_nil (bytes : List Nat) : windows bytes [] = [] := rfl

theorem windows_cons (bytes : List Nat) (o : SysOutcome) (rest : List SysOutcome) :
    windows bytes (o :: rest) =
      window (getrandom bytes 32 o).2 :: windows (getrandom bytes 32 o).2 rest := rfl

theorem windows_append (bytes : List Nat) (r1 r2 : List SysOutcome) :
    ∃ bytes1, windows bytes (r1 ++ r2) = windows bytes r1 ++ windows bytes1 r2 := by
  induction r1 generalizing bytes with
  | nil => exact ⟨bytes, rfl⟩
  | cons o r1 ih =>
    obtain ⟨b1, hb1⟩ := ih (getrandom bytes 32 o).2
    exact ⟨b1, by simp [windows_cons, hb1]⟩

/-- Every result of the `while` loop is a `return buf`. -/
theorem whileLoop_ok (alphabet : List Nat) (A M buflen : Nat) (rand : List SysOutcome)
    (bytes : List Nat) (st : GenState) (r : Result)
    (h : whileLoop alphabet A M buflen rand bytes st = some r) : r.ok = true := by
  induction rand generalizing bytes st with
  | nil => simp [whileLoop] at h
  | cons o rest ih =>
    unfold whileLoop at h
    simp only at h
    split at h
    · simp only [Option.some.injEq] at h
      rw [← h]
    · exact ih _ _ h

/-- The loop is still running when the outcomes are used up, if they hold too
few accepted bytes. -/
theorem whileLoop_starved (alphabet : List Nat) (A M buflen : Nat) (hb : buflen < 2 ^ 64)
    (rand : List SysOutcome) (bytes : List Nat) (st : GenState)
    (h : st.len + (referenceSymbols alphabet A M (windows bytes rand).flatten).length < buflen) :
    whileLoop alphabet A M buflen rand bytes st = none := by
  induction rand generalizing bytes st with
  | nil => rfl
  | cons o rest ih =>
    simp only [windows_cons, List.flatten_cons, referenceSymbols_append, List.length_append] at h
    unfold whileLoop
    simp only
    have hs := forLoop_spec alphabet A M buflen (getrandom bytes 32 o).2 hb 32 0 st (by omega)
    rw [if_pos (by unfold window at h; omega)] at hs
    rw [hs]
    simp only
    apply ih
    simp only
    unfold window at h
    omega

/-- The loop returns in the pass over the first window that brings the number
of accepted bytes to `buflen`. -/
theorem whileLoop_at (alphabet : List Nat) (A M buflen : Nat) (hb : buflen < 2 ^ 64)
    (r1 : List SysOutcome) (o : SysOutcome) (r2 : List SysOutcome)
    (bytes : List Nat) (st : GenState)
    (h1 : st.len + (referenceSymbols alphabet A M (windows bytes r1).flatten).length < buflen)
    (h2 : buflen ≤
      st.len + (referenceSymbols alphabet A M (windows bytes (r1 ++ [o])).flatten).length) :
    whileLoop alphabet A M buflen (r1 ++ o :: r2) bytes st =
      some
        { ok := true
          writes := st.writes ++ List.enumFrom st.len
            ((referenceSymbols alphabet A M (windows bytes (r1 ++ [o])).flatten).take
              (buflen - st.len))
          rest := r2 } := by
  induction r1 generalizing bytes st with
  | nil =>
    simp only [List.nil_append, windows_cons, windows_nil, List.flatten_cons, List.flatten_nil, List.append_nil] at h2 ⊢
    simp only [windows_nil, List.flatten_nil, referenceSymbols_nil, List.length_nil, Nat.add_zero] at h1
    unfold whileLoop
    simp only
    have hs := forLoop_spec alphabet A M buflen (getrandom bytes 32 o).2 hb 32 0 st h1
    rw [if_neg (by unfold window at h2; omega)] at hs
    rw [hs]
    rfl
  | cons o1 r1 ih =>
    simp only [List.cons_append, windows_cons, List.flatten_cons, referenceSymbols_append,
      List.length_append] at h1 h2 ⊢
    unfold whileLoop
    simp only
    have hs := forLoop_spec alphabet A M buflen (getrandom bytes 32 o1).2 hb 32 0 st (by omega)
    rw [if_pos (by unfold window at h1; omega)] at hs
    rw [hs]
    simp only
    rw [ih]
    · simp only [Option.some.injEq, Result.mk.injEq, true_and, and_true]
      rw [List.take_append_eq_append_take]
      have hl : (referenceSymbols alphabet A M (window (getrandom bytes 32 o1).2)).length ≤
          buflen - st.len := by omega
      rw [List.take_of_length_le hl]
      simp only [window, List.append_assoc, List.append_cancel_left_eq]
      rw [List.enumFrom_append]
      rw [Nat.sub_add_eq]
    · simp only
      unfold window at h1
      omega
    · simp only
      unfold window at h2
      omega

/-- When the outcomes hold enough accepted bytes, some pass is the first to
reach the required number. -/
theorem exists_first_pass (alphabet : List Nat) (A M : Nat) (rand : List SysOutcome)
    (bytes : List Nat) (need : Nat) (hpos : 0 < need)
    (h : need ≤ (referenceSymbols alphabet A M (windows bytes rand).flatten).length) :
    ∃ r1 o r2, rand = r1 ++ o :: r2 ∧
      (referenceSymbols alphabet A M (windows bytes r1).flatten).length < need ∧
      need ≤ (referenceSymbols alphabet A M (windows bytes (r1 ++ [o])).flatten).length := by
  induction rand generalizing bytes need with
  | nil => simp [windows_nil, referenceSymbols_nil] at h; omega
  | cons o rest ih =>
    simp only [windows_cons, List.flatten_cons, referenceSymbols_append, List.length_append] at h
    by_cases hfirst :
        need ≤ (referenceSymbols alphabet A M (window (getrandom bytes 32 o).2)).length
    · refine ⟨[], o, rest, rfl, ?_, ?_⟩
      · simpa [windows_nil, referenceSymbols_nil] using hpos
      · simpa [windows_cons, windows_nil] using hfirst
    · obtain ⟨r1, o2, r2, e, c1, c2⟩ := ih (getrandom bytes 32 o).2
        (need - (referenceSymbols alphabet A M (window (getrandom bytes 32 o).2)).length)
        (by omega) (by omega)
      refine ⟨o :: r1, o2, r2, by rw [e]; rfl, ?_, ?_⟩
      · simp only [windows_cons, List.flatten_cons, referenceSymbols_append, List.length_append]
        omega
      · simp only [List.cons_append, windows_cons, List.flatten_cons, referenceSymbols_append,
          List.length_append]
        omega

/-! ## The mask -/

/-- For a count in `2..255` the mask is `2 ^ k - 1` with `k = log2 (A - 1) + 1 ≤ 8`. -/
theorem computeMask_eq (gnuc : Bool) (A : Nat) (h2 : 2 ≤ A) (h255 : A ≤ 255) :
    computeMask gnuc A = 2 ^ ((A - 1).log2 + 1) - 1 ∧ (A - 1).log2 + 1 ≤ 8 ∧
      roundup2 gnuc A = 2 ^ ((A - 1).log2 + 1) := by
  have hk : (A - 1).log2 < 8 := (Nat.log2_lt (by omega)).2 (by norm_num; omega)
  have hp : 2 ^ ((A - 1).log2 + 1) ≤ 2 ^ 8 := Nat.pow_le_pow_right (by decide) (by omega)
  have hpos : 0 < 2 ^ ((A - 1).log2 + 1) := Nat.two_pow_pos _
  have hr : roundup2 gnuc A = 2 ^ ((A - 1).log2 + 1) := by
    rw [roundup2_eq gnuc A h2 (by norm_num; omega)]
    exact Nat.mod_eq_of_lt (by norm_num at hp ⊢; omega)
  refine ⟨?_, by omega, hr⟩
  unfold computeMask
  rw [Nat.mod_eq_of_lt (show A < 2 ^ 32 by norm_num; omega), hr]
  norm_num at hp ⊢
  omega

theorem le_computeMask (gnuc : Bool) (A : Nat) (h2 : 2 ≤ A) (h255 : A ≤ 255) :
    A ≤ computeMask gnuc A + 1 := by
  obtain ⟨hm, _, _⟩ := computeMask_eq gnuc A h2 h255
  have hlt : A - 1 < 2 ^ ((A - 1).log2 + 1) := Nat.lt_log2_self
  omega

/-! ## Entry into the generation loop -/

theorem default_symbols_length : default_symbols.length = 64 := by decide

theorem default_alphabet_length : default_alphabet.length = 65 := by decide

/-- With a count in `2..255` the call runs the generation loop. -/
theorem generate_r_valid (gnuc : Bool) (stack : List Nat) (L : Nat) (a : List Nat) (A : Nat)
    (rand : List SysOutcome) (h2 : 2 ≤ A) (h255 : A ≤ 255) :
    nanoid_generate_r gnuc stack L (some a) A rand =
      whileLoop a A (computeMask gnuc A) L rand stack { len := 0, writes := [] } := by
  unfold nanoid_generate_r
  simp only
  rw [if_neg (by omega)]

/-- With a count outside `2..255` the call returns `NULL` at once. -/
theorem generate_r_invalid (gnuc : Bool) (stack : List Nat) (L : Nat) (a : List Nat) (A : Nat)
    (rand : List SysOutcome) (h : A ≤ 1 ∨ 256 ≤ A) :
    nanoid_generate_r gnuc stack L (some a) A rand =
      some { ok := false, writes := [], rest := rand } := by
  unfold nanoid_generate_r
  simp only
  rw [if_pos (by omega)]

/-- With the `NULL` alphabet the call runs the generation loop on the default
alphabet with count 64, whatever the count argument. -/
theorem generate_r_null (gnuc : Bool) (stack : List Nat) (L A : Nat)
    (rand : List SysOutcome) :
    nanoid_generate_r gnuc stack L none A rand =
      whileLoop default_alphabet 64 (computeMask gnuc 64) L rand stack
        { len := 0, writes := [] } := by
  unfold nanoid_generate_r
  simp only [default_alphabet_length]
  rw [if_neg (by omega)]

/-- The symbols stored by a pass are alphabet entries at accepted indices. -/
theorem forLoop_symbols (alphabet : List Nat) (A M buflen : Nat) (bytes : List Nat)
    (n i : Nat) (st : GenState)
    (h : ∀ w ∈ st.writes, ∃ j, j < A ∧ w.2 = alphabet.getD j 0) :
    ∀ w ∈ (forLoop alphabet A M buflen bytes n i st).state.writes,
      ∃ j, j < A ∧ w.2 = alphabet.getD j 0 := by
  induction n generalizing i st with
  | zero => simpa [forLoop, Pass.state] using h
  | succ n ih =>
    unfold forLoop
    simp only
    by_cases hacc : bytes.getD i 0 &&& M ≥ A
    · rw [if_pos hacc]
      exact ih (i + 1) st h
    · rw [if_neg hacc]
      have h1 : ∀ w ∈ st.writes ++ [(st.len, alphabet.getD (bytes.getD i 0 &&& M) 0)],
          ∃ j, j < A ∧ w.2 = alphabet.getD j 0 := by
        intro w hw
        rcases List.mem_append.1 hw with hw | hw
        · exact h w hw
        · simp only [List.mem_singleton] at hw
          subst hw
          exact ⟨_, by omega, rfl⟩
      split
      · simpa [Pass.state] using h1
      · exact ih (i + 1) _ h1

/-- The symbols stored by the `while` loop are alphabet entries at accepted
indices. -/
theorem whileLoop_symbols (alphabet : List Nat) (A M buflen : Nat) (rand : List SysOutcome)
    (bytes : List Nat) (st : GenState) (r : Result)
    (h : ∀ w ∈ st.writes, ∃ j, j < A ∧ w.2 = alphabet.getD j 0)
    (hr : whileLoop alphabet A M buflen rand bytes st = some r) :
    ∀ w ∈ r.writes, ∃ j, j < A ∧ w.2 = alphabet.getD j 0 := by
  induction rand generalizing bytes st with
  | nil => simp [whileLoop] at hr
  | cons o rest ih =>
    unfold whileLoop at hr
    simp only at hr
    have hs := forLoop_symbols alphabet A M buflen (getrandom bytes 32 o).2 32 0 st h
    split at hr
    · next st1 heq =>
      simp only [Option.some.injEq] at hr
      rw [heq] at hs
      rw [← hr]
      exact hs
    · next st1 heq =>
      rw [heq] at hs
      exact ih _ _ hs hr

/-- An entry of a supplied alphabet at an index below its length is a member. -/
theorem getD_mem_of_lt (a : List Nat) (j : Nat) (h : j < a.length) : a.getD j 0 ∈ a := by
  rw [List.getD_eq_getElem _ _ h]
  exact List.getElem_mem h

/-- An entry of the default array at an index below 64 is a default symbol. -/
theorem default_getD_mem (j : Nat) (h : j < 64) : default_alphabet.getD j 0 ∈ default_symbols := by
  have e : default_alphabet.getD j 0 = default_symbols.getD j 0 := by
    unfold default_alphabet
    rw [List.getD_append _ _ _ _ (by rw [default_symbols_length]; exact h)]
  rw [e]
  exact getD_mem_of_lt _ _ (by rw [default_symbols_length]; exact h)

/-- The loop in closed form when started with an empty buffer. -/
theorem whileLoop_closed (alphabet : List Nat) (A M L : Nat) (hpos : 0 < L) (hb : L < 2 ^ 64)
    (rand : List SysOutcome) (bytes : List Nat) :
    ((referenceSymbols alphabet A M (windows bytes rand).flatten).length < L →
      whileLoop alphabet A M L rand bytes { len := 0, writes := [] } = none) ∧
    (L ≤ (referenceSymbols alphabet A M (windows bytes rand).flatten).length →
      ∃ r2, whileLoop alphabet A M L rand bytes { len := 0, writes := [] } =
        some
          { ok := true
            writes := List.enumFrom 0
              ((referenceSymbols alphabet A M (windows bytes rand).flatten).take L)
            rest := r2 }) := by
  constructor
  · intro h
    exact whileLoop_starved alphabet A M L hb rand bytes _ (by simpa using h)
  · intro h
    obtain ⟨r1, o, r2, e, c1, c2⟩ := exists_first_pass alphabet A M rand bytes L hpos h
    refine ⟨r2, ?_⟩
    have hw := whileLoop_at alphabet A M L hb r1 o r2 bytes { len := 0, writes := [] }
      (by simpa using c1) (by simpa using c2)
    rw [e, hw]
    simp only [List.nil_append, Nat.sub_zero, Option.some.injEq, Result.mk.injEq, true_and,
      and_true]
    obtain ⟨b1, hb1⟩ := windows_append bytes (r1 ++ [o]) r2
    have e2 : r1 ++ o :: r2 = (r1 ++ [o]) ++ r2 := by simp
    rw [e2, hb1, List.flatten_append, referenceSymbols_append, List.take_append_of_le_length c2]

/-! ## Shape of a successful result -/

/-- A result of the loop started on an empty buffer with `1 ≤ L < 2 ^ 64`. -/
theorem whileLoop_shape (alphabet : List Nat) (A M L : Nat) (hpos : 0 < L) (hb : L < 2 ^ 64)
    (rand : List SysOutcome) (bytes : List Nat) (r : Result)
    (h : whileLoop alphabet A M L rand bytes { len := 0, writes := [] } = some r) :
    L ≤ (referenceSymbols alphabet A M (windows bytes rand).flatten).length ∧
      r.ok = true ∧
      r.writes = List.enumFrom 0
        ((referenceSymbols alphabet A M (windows bytes rand).flatten).take L) ∧
      r.writes.length = L ∧ r.writes.map Prod.fst = List.range L := by
  obtain ⟨hn, hs⟩ := whileLoop_closed alphabet A M L hpos hb rand bytes
  by_cases hc : (referenceSymbols alphabet A M (windows bytes rand).flatten).length < L
  · rw [hn hc] at h
    exact absurd h (by simp)
  · have hc : L ≤ (referenceSymbols alphabet A M (windows bytes rand).flatten).length := by
      omega
    obtain ⟨r2, hr2⟩ := hs hc
    rw [hr2] at h
    simp only [Option.some.injEq] at h
    subst h
    refine ⟨hc, rfl, rfl, ?_, ?_⟩
    · simp [List.enumFrom_length, hc]
    · simp [List.enumFrom_map_fst, List.range_eq_range', hc]

theorem applyWrites_enumFrom (syms : List Nat) (k : Nat) (mem : List Nat)
    (h : k + syms.length ≤ mem.length) :
    applyWrites mem (List.enumFrom k syms) =
      mem.take k ++ syms ++ mem.drop (k + syms.length) := by
  induction syms generalizing k mem with
  | nil => simp [applyWrites]
  | cons s syms ih =>
    simp only [List.length_cons] at h
    have hk : k < mem.length := by omega
    have step : applyWrites mem (List.enumFrom k (s :: syms)) =
        applyWrites (mem.set k s) (List.enumFrom (k + 1) syms) := by
      simp [applyWrites, List.enumFrom]
    rw [step, ih (k + 1) (mem.set k s) (by simp; omega)]
    rw [List.drop_set_of_lt s mem (by omega : k < k + 1 + syms.length)]
    rw [List.set_eq_take_append_cons_drop, if_pos hk]
    have hlen : (List.take k mem).length = k := by simp; omega
    have e : List.take (k + 1) (List.take k mem ++ s :: List.drop (k + 1) mem) =
        List.take k mem ++ [s] := by
      rw [List.take_append_eq_append_take, hlen, List.take_of_length_le (by omega)]
      simp
    rw [e]
    have e2 : k + 1 + syms.length = k + (s :: syms).length := by simp; omega
    rw [e2]
    simp

/-! ## Further facts used by the claims -/

theorem zero_not_mem_default_symbols : (0 : Nat) ∉ default_symbols := by decide

theorem mem_default_symbols_iff (s : Nat) :
    s ∈ default_symbols ↔
      (65 ≤ s ∧ s ≤ 90) ∨ (97 ≤ s ∧ s ≤ 122) ∨ (48 ≤ s ∧ s ≤ 57) ∨ s = 45 ∨ s = 95 := by
  by_cases hs : s < 128
  · interval_cases s <;> decide
  · constructor
    · intro h
      have : ∀ x ∈ default_symbols, x < 128 := by decide
      exact absurd (this s h) hs
    · intro h
      omega

theorem computeMask_64 (gnuc : Bool) : computeMask gnuc 64 = 63 := by
  obtain ⟨hm, _, _⟩ := computeMask_eq gnuc 64 (by decide) (by decide)
  have : (64 - 1).log2 = 5 := log2_eq_of_bounds (by decide) (by decide)
  rw [hm, this]
  norm_num

/-- When no byte is rejected, every byte yields a symbol. -/
theorem referenceSymbols_length_of_all (alphabet : List Nat) (A M : Nat)
    (hall : ∀ b, b &&& M < A) (bs : List Nat) :
    (referenceSymbols alphabet A M bs).length = bs.length := by
  unfold referenceSymbols
  rw [List.length_map, List.filter_eq_self.2]
  intro b _
  simpa using hall b

theorem window_length (bytes : List Nat) : (window bytes).length = 32 := by
  simp [window]

theorem windows_flatten_length (bytes : List Nat) (rand : List SysOutcome) :
    (windows bytes rand).flatten.length = 32 * rand.length := by
  induction rand generalizing bytes with
  | nil => rfl
  | cons o rest ih =>
    rw [windows_cons, List.flatten_cons, List.length_append, ih, window_length,
      List.length_cons]
    omega

/-- The symbols of a result of the generation loop, for a supplied alphabet of
at least `A` entries. -/
theorem whileLoop_mem_alphabet (a : List Nat) (A M L : Nat) (hA : A ≤ a.length)
    (rand : List SysOutcome) (bytes : List Nat) (r : Result)
    (h : whileLoop a A M L rand bytes { len := 0, writes := [] } = some r) :
    ∀ w ∈ r.writes, w.2 ∈ a := by
  intro w hw
  obtain ⟨j, hj, e⟩ := whileLoop_symbols a A M L rand bytes _ r (by simp) h w hw
  rw [e]
  exact getD_mem_of_lt a j (by omega)

/-- The symbols of a result of the generation loop on the default alphabet. -/
theorem whileLoop_mem_default (M L : Nat) (rand : List SysOutcome) (bytes : List Nat)
    (r : Result)
    (h : whileLoop default_alphabet 64 M L rand bytes { len := 0, writes := [] } = some r) :
    ∀ w ∈ r.writes, w.2 ∈ default_symbols := by
  intro w hw
  obtain ⟨j, hj, e⟩ := whileLoop_symbols default_alphabet 64 M L rand bytes _ r (by simp) h w hw
  rw [e]
  exact default_getD_mem j hj

/-- A result of `nanoid_generate_r` that reports success comes from the
generation loop run with the effective alphabet and count. -/
theorem generate_r_ok_loop (gnuc : Bool) (stack : List Nat) (L : Nat)
    (alphabet : Option (List Nat)) (A : Nat) (rand : List SysOutcome) (r : Result)
    (h : nanoid_generate_r gnuc stack L alphabet A rand = some r) (hok : r.ok = true) :
    2 ≤ countOf alphabet A ∧ countOf alphabet A ≤ 255 ∧
      whileLoop (match alphabet with | none => default_alphabet | some a => a)
        (countOf alphabet A) (computeMask gnuc (countOf alphabet A)) L rand stack
        { len := 0, writes := [] } = some r := by
  cases alphabet with
  | none =>
    rw [generate_r_null] at h
    exact ⟨by simp [countOf], by simp [countOf], h⟩
  | some a =>
    by_cases hv : 2 ≤ A ∧ A ≤ 255
    · rw [generate_r_valid gnuc stack L a A rand hv.1 hv.2] at h
      exact ⟨hv.1, hv.2, h⟩
    · rw [generate_r_invalid gnuc stack L a A rand (by omega)] at h
      simp only [Option.some.injEq] at h
      rw [← h] at hok
      simp at hok

/-- The stores of a successful call are the enumeration of `L` symbols of the
effective alphabet. -/
theorem generate_r_ok_syms (gnuc : Bool) (stack : List Nat) (L : Nat)
    (alphabet : Option (List Nat)) (A : Nat) (rand : List SysOutcome) (r : Result)
    (hL : 1 ≤ L) (hL64 : L < 2 ^ 64)
    (hcnt : ∀ a, alphabet = some a → a.length = A)
    (h : nanoid_generate_r gnuc stack L alphabet A rand = some r) (hok : r.ok = true) :
    ∃ syms, r.writes = List.enumFrom 0 syms ∧ syms.length = L ∧
      ∀ s ∈ syms, s ∈ symbolsOf alphabet := by
  obtain ⟨_, _, hw⟩ := generate_r_ok_loop gnuc stack L alphabet A rand r h hok
  obtain ⟨hc, _, hwr, _, _⟩ := whileLoop_shape _ _ _ L (by omega) hL64 rand stack r hw
  refine ⟨_, hwr, by simp [hc], ?_⟩
  intro s hs
  obtain ⟨j, hj, e⟩ := referenceSymbols_mem _ _ _ _ s (List.mem_of_mem_take hs)
  rw [e]
  cases alphabet with
  | none => exact default_getD_mem j hj
  | some a => exact getD_mem_of_lt a j (by rw [hcnt a rfl]; exact hj)

/-- Storing 21 symbols and the terminator into a 22-byte buffer. -/
theorem terminated_buffer (sbuf syms : List Nat) (hs : sbuf.length = NANOID_SIZE + 1)
    (hl : syms.length = NANOID_SIZE) :
    (applyWrites sbuf (List.enumFrom 0 syms)).set NANOID_SIZE 0 = syms ++ [0] := by
  rw [applyWrites_enumFrom syms 0 sbuf (by omega)]
  have hd : (sbuf.drop (0 + syms.length)).length = 1 := by
    rw [List.length_drop]; omega
  obtain ⟨x, hx⟩ := List.length_eq_one.1 hd
  rw [hx, List.take_zero, List.nil_append, List.set_append, if_neg (by omega), hl]
  simp

theorem strlen_append_zero (syms : List Nat) (h : ∀ s ∈ syms, s ≠ 0) :
    strlen (syms ++ [0]) = syms.length := by
  unfold strlen
  rw [List.takeWhile_append_of_pos (by intro a ha; simpa using h a ha)]
  simp

/-! ## Counting the byte values that select an index -/

/-- Among the 256 byte values, exactly `256 / 2 ^ k` have low `k` bits equal to `j`. -/
theorem countP_land_eq (k j : Nat) (hk : k ≤ 8) (hj : j < 2 ^ k) :
    (List.range 256).countP (fun b => decide (b &&& (2 ^ k - 1) = j)) = 256 / 2 ^ k := by
  have hpos : 0 < 2 ^ k := Nat.two_pow_pos k
  have hc := Nat.count_modEq_card 256 hpos j
  have hdvd : 256 % 2 ^ k = 0 := by
    apply Nat.mod_eq_zero_of_dvd
    have : (2 : Nat) ^ k ∣ 2 ^ 8 := Nat.pow_dvd_pow 2 hk
    simpa using this
  rw [hdvd, if_neg (by omega), Nat.add_zero] at hc
  rw [← hc]
  unfold Nat.count
  apply List.countP_congr
  intro b _
  simp only [decide_eq_true_eq, Nat.and_pow_two_sub_one_eq_mod]
  unfold Nat.ModEq
  rw [Nat.mod_eq_of_lt hj]

theorem countP_lt_succ (f : Nat → Nat) (A : Nat) (l : List Nat) :
    l.countP (fun b => decide (f b < A + 1)) =
      l.countP (fun b => decide (f b < A)) + l.countP (fun b => decide (f b = A)) := by
  induction l with
  | nil => rfl
  | cons b l ih =>
    simp only [List.countP_cons, ih]
    by_cases h1 : f b < A
    · have h2 : f b < A + 1 := by omega
      have h3 : ¬ f b = A := by omega
      simp [h1, h2, h3]
      omega
    · by_cases h3 : f b = A
      · have h2 : f b < A + 1 := by omega
        simp [h1, h2, h3]
        omega
      · have h2 : ¬ f b < A + 1 := by omega
        simp [h1, h2, h3]

/-- Among the 256 byte values, exactly `A * (256 / 2 ^ k)` have low `k` bits
below `A`, for `A ≤ 2 ^ k`. -/
theorem countP_land_lt (k A : Nat) (hk : k ≤ 8) (hA : A ≤ 2 ^ k) :
    (List.range 256).countP (fun b => decide (b &&& (2 ^ k - 1) < A)) = A * (256 / 2 ^ k) := by
  induction A with
  | zero => simp
  | succ A ih =>
    rw [countP_lt_succ, ih (by omega), countP_land_eq k A hk (by omega)]
    ring

/-- Distinct indices of a duplicate-free alphabet hold distinct symbols. -/
theorem getD_inj_of_nodup (a : List Nat) (hn : a.Nodup) (i j : Nat) (hi : i < a.length)
    (hj : j < a.length) (h : a.getD i 0 = a.getD j 0) : i = j := by
  rw [List.getD_eq_getElem a 0 hi, List.getD_eq_getElem a 0 hj] at h
  exact (List.Nodup.getElem_inj_iff hn).1 h

/-! ## Entropy delivered in full 32-byte blocks -/

theorem window_append (blk rest : List Nat) (h : blk.length = 32) :
    window (blk ++ rest) = blk := by
  apply List.ext_getElem
  · simp [window, h]
  · intro i h1 h2
    have hi : i < blk.length := h2
    simp only [window, List.getElem_map, List.getElem_range', Nat.one_mul, Nat.zero_add]
    rw [List.getD_append _ _ _ _ hi, List.getD_eq_getElem _ _ hi]

theorem getrandom_filled (bytes blk : List Nat) (h : blk.length = 32) :
    window (getrandom bytes 32 (SysOutcome.filled blk)).2 = blk := by
  have ht : blk.take 32 = blk := List.take_of_length_le (by omega)
  simp only [getrandom, ht]
  exact window_append blk _ h

/-- Full blocks are read back unchanged, whatever the scratch array held. -/
theorem windows_filled (bytes : List Nat) (blocks : List (List Nat))
    (h : ∀ blk ∈ blocks, blk.length = 32) :
    windows bytes (blocks.map SysOutcome.filled) = blocks := by
  induction blocks generalizing bytes with
  | nil => rfl
  | cons blk blocks ih =>
    rw [List.map_cons, windows_cons, getrandom_filled bytes blk (h blk (by simp)),
      ih _ (fun b hb => h b (by simp [hb]))]

theorem flatten_length_uniform (blocks : List (List Nat))
    (h : ∀ blk ∈ blocks, blk.length = 32) : blocks.flatten.length = 32 * blocks.length := by
  induction blocks with
  | nil => rfl
  | cons blk blocks ih =>
    rw [List.flatten_cons, List.length_append, ih (fun b hb => h b (by simp [hb])),
      h blk (by simp), List.length_cons]
    omega

theorem referenceSymbols_take_le (alphabet : List Nat) (A M : Nat) (bs : List Nat) (n : Nat) :
    (referenceSymbols alphabet A M (bs.take n)).length ≤
      (referenceSymbols alphabet A M bs).length := by
  conv_rhs => rw [← List.take_append_drop n bs]
  rw [referenceSymbols_append, List.length_append]
  omega

theorem whileLoop_split_aux (alphabet : List Nat) (A M L : Nat) (hL64 : L < 2 ^ 64)
    (stack : List Nat) (B1 : List (List Nat)) (blk : List Nat) (B2 : List (List Nat))
    (hblk : ∀ x ∈ B1 ++ blk :: B2, x.length = 32)
    (pre : List Nat) (b : Nat) (post : List Nat)
    (hsplit : (B1 ++ blk :: B2).flatten = pre ++ b :: post)
    (hk : B1.length = pre.length / 32)
    (hcount : (referenceSymbols alphabet A M pre).length + 1 = L) (hacc : b &&& M < A) :
    whileLoop alphabet A M L ((B1 ++ blk :: B2).map SysOutcome.filled) stack
        { len := 0, writes := [] } =
      some
        { ok := true
          writes := List.enumFrom 0 (referenceSymbols alphabet A M (pre ++ [b]))
          rest := B2.map SysOutcome.filled } := by
  have hb1 : ∀ x ∈ B1, x.length = 32 := fun x hm => hblk x (by simp [hm])
  have hbk : blk.length = 32 := hblk blk (by simp)
  have hb1k : ∀ x ∈ B1 ++ [blk], x.length = 32 := by
    intro x hm
    rcases List.mem_append.1 hm with hm | hm
    · exact hb1 x hm
    · simp only [List.mem_singleton] at hm
      rw [hm]; exact hbk
  have hl1 : B1.flatten.length = 32 * (pre.length / 32) := by
    rw [flatten_length_uniform _ hb1, hk]
  have hl2 : (B1 ++ [blk]).flatten.length = 32 * (pre.length / 32) + 32 := by
    rw [flatten_length_uniform _ hb1k, List.length_append, hk]
    simp
    omega
  have hF1 : (B1 ++ blk :: B2).flatten = B1.flatten ++ (blk :: B2).flatten :=
    List.flatten_append _ _
  have hF2 : (B1 ++ blk :: B2).flatten = (B1 ++ [blk]).flatten ++ B2.flatten := by
    simp
  have hpre1 : B1.flatten = pre.take (32 * (pre.length / 32)) := by
    have e1 : (B1 ++ blk :: B2).flatten.take (32 * (pre.length / 32)) = B1.flatten := by
      rw [hF1, List.take_left' hl1]
    rw [← e1, hsplit, List.take_append_of_le_length (by omega)]
  have hpre2 : (B1 ++ [blk]).flatten =
      (pre ++ [b]) ++ post.take (32 * (pre.length / 32) + 32 - (pre.length + 1)) := by
    have e1 : (B1 ++ blk :: B2).flatten.take (32 * (pre.length / 32) + 32) =
        (B1 ++ [blk]).flatten := by
      rw [hF2, List.take_left' hl2]
    have e2 : pre ++ b :: post = (pre ++ [b]) ++ post := by simp
    rw [← e1, hsplit, e2, List.take_append_eq_append_take,
      List.take_of_length_le (by simp; omega)]
    simp
  have hsym : (referenceSymbols alphabet A M (pre ++ [b])).length = L := by
    rw [referenceSymbols_append, referenceSymbols_cons, if_pos hacc, referenceSymbols_nil,
      List.length_append]
    simp
    omega
  have e : B1.map SysOutcome.filled ++ [SysOutcome.filled blk] =
      (B1 ++ [blk]).map SysOutcome.filled := by simp
  have hw := whileLoop_at alphabet A M L hL64 (B1.map SysOutcome.filled)
    (SysOutcome.filled blk) (B2.map SysOutcome.filled) stack { len := 0, writes := [] }
    (by
      rw [windows_filled stack _ hb1, hpre1]
      have := referenceSymbols_take_le alphabet A M pre (32 * (pre.length / 32))
      simp only [Nat.zero_add]
      omega)
    (by
      rw [e, windows_filled stack _ hb1k, hpre2, referenceSymbols_append, List.length_append,
        hsym]
      simp only [Nat.zero_add]
      omega)
  have e3 : (B1 ++ blk :: B2).map SysOutcome.filled =
      B1.map SysOutcome.filled ++ SysOutcome.filled blk :: B2.map SysOutcome.filled := by
    simp
  rw [e3, hw, e, windows_filled stack _ hb1k, hpre2, referenceSymbols_append,
    List.take_append_of_le_length (by omega)]
  simp only [List.nil_append, Nat.sub_zero]
  rw [List.take_of_length_le (by omega)]

/-- The call returns in the pass over the block that holds the byte producing
the `L`-th symbol; the stores depend on the stream up to that byte only, and
the later blocks are left unread. -/
theorem whileLoop_split (alphabet : List Nat) (A M L : Nat) (hL64 : L < 2 ^ 64)
    (stack : List Nat) (blocks : List (List Nat)) (hblk : ∀ blk ∈ blocks, blk.length = 32)
    (pre : List Nat) (b : Nat) (post : List Nat)
    (hsplit : blocks.flatten = pre ++ b :: post)
    (hcount : (referenceSymbols alphabet A M pre).length + 1 = L) (hacc : b &&& M < A) :
    whileLoop alphabet A M L (blocks.map SysOutcome.filled) stack { len := 0, writes := [] } =
      some
        { ok := true
          writes := List.enumFrom 0 (referenceSymbols alphabet A M (pre ++ [b]))
          rest := (blocks.drop (pre.length / 32 + 1)).map SysOutcome.filled } := by
  have hlen := flatten_length_uniform blocks hblk
  have hF : blocks.flatten.length = pre.length + 1 + post.length := by
    rw [hsplit]; simp; omega
  have hk : pre.length / 32 < blocks.length := by omega
  obtain ⟨B1, blk, B2, hdecomp, hB1, hB2⟩ : ∃ B1 blk B2, blocks = B1 ++ blk :: B2 ∧
      B1.length = pre.length / 32 ∧ B2 = blocks.drop (pre.length / 32 + 1) :=
    ⟨blocks.take (pre.length / 32), blocks[pre.length / 32],
      blocks.drop (pre.length / 32 + 1),
      by rw [← List.drop_eq_getElem_cons hk, List.take_append_drop],
      by rw [List.length_take]; omega, rfl⟩
  rw [← hB2]
  clear hB2
  subst hdecomp
  exact whileLoop_split_aux alphabet A M L hL64 stack B1 blk B2 hblk pre b post hsplit hB1
    hcount hacc

/-! ## Counts that are powers of two -/

theorem computeMask_two_pow (gnuc : Bool) (k : Nat) (hk1 : 1 ≤ k) (hk7 : k ≤ 7) :
    computeMask gnuc (2 ^ k) = 2 ^ k - 1 := by
  have hle : (2 : Nat) ^ k ≤ 2 ^ 7 := Nat.pow_le_pow_right (by decide) hk7
  have hge : (2 : Nat) ^ 1 ≤ 2 ^ k := Nat.pow_le_pow_right (by decide) hk1
  obtain ⟨hm, _, _⟩ := computeMask_eq gnuc (2 ^ k) (by simpa using hge)
    (by norm_num at hle; omega)
  have hsucc : (2 : Nat) ^ k = 2 * 2 ^ (k - 1) := by
    conv_lhs => rw [show k = (k - 1) + 1 by omega]
    rw [pow_succ, mul_comm]
  have hpos : 0 < 2 ^ (k - 1) := Nat.two_pow_pos _
  have hlog : (2 ^ k - 1).log2 = k - 1 := by
    apply log2_eq_of_bounds
    · omega
    · rw [show k - 1 + 1 = k by omega]
      omega
  rw [hm, hlog, show k - 1 + 1 = k by omega]

theorem land_two_pow_lt (k b : Nat) : b &&& (2 ^ k - 1) < 2 ^ k := by
  rw [Nat.and_pow_two_sub_one_eq_mod]
  exact Nat.mod_lt _ (Nat.two_pow_pos k)

/-- When no byte is rejected, the symbols are the images of all the bytes. -/
theorem referenceSymbols_of_all (alphabet : List Nat) (A M : Nat)
    (hall : ∀ b, b &&& M < A) (bs : List Nat) :
    referenceSymbols alphabet A M bs = bs.map (fun b => alphabet.getD (b &&& M) 0) := by
  unfold referenceSymbols
  rw [List.filter_eq_self.2]
  intro b _
  simpa using hall b

/-- When no byte is rejected and the blocks are full, the call stores the
images of the first `L` bytes and consumes `(L + 31) / 32` blocks. -/
theorem whileLoop_all_accepted (alphabet : List Nat) (A M L : Nat) (hL : 1 ≤ L)
    (hL64 : L < 2 ^ 64) (hall : ∀ b, b &&& M < A) (stack : List Nat)
    (blocks : List (List Nat)) (hblk : ∀ blk ∈ blocks, blk.length = 32)
    (hen : L ≤ 32 * blocks.length) :
    whileLoop alphabet A M L (blocks.map SysOutcome.filled) stack { len := 0, writes := [] } =
      some
        { ok := true
          writes := List.enumFrom 0
            ((blocks.flatten.take L).map (fun b => alphabet.getD (b &&& M) 0))
          rest := (blocks.drop ((L + 31) / 32)).map SysOutcome.filled } := by
  have hlen := flatten_length_uniform blocks hblk
  have hlt : L - 1 < blocks.flatten.length := by omega
  have hsplit : blocks.flatten =
      blocks.flatten.take (L - 1) ++ blocks.flatten[L - 1] :: blocks.flatten.drop L := by
    have e := List.drop_eq_getElem_cons hlt
    rw [show L - 1 + 1 = L by omega] at e
    rw [← e, List.take_append_drop]
  have hprelen : (blocks.flatten.take (L - 1)).length = L - 1 := by
    rw [List.length_take]; omega
  have htake : blocks.flatten.take (L - 1) ++ [blocks.flatten[L - 1]] =
      blocks.flatten.take L := by
    have e := List.take_concat_get blocks.flatten (L - 1) hlt
    rw [show L - 1 + 1 = L by omega, List.concat_eq_append] at e
    exact e
  have hw := whileLoop_split alphabet A M L hL64 stack blocks hblk
    (blocks.flatten.take (L - 1)) (blocks.flatten[L - 1]) (blocks.flatten.drop L) hsplit
    (by rw [referenceSymbols_length_of_all alphabet A M hall, hprelen]; omega)
    (hall _)
  rw [hw, htake, referenceSymbols_of_all alphabet A M hall, hprelen,
    show (L - 1) / 32 + 1 = (L + 31) / 32 by omega]

/-- With the alphabet `ab` the low bit of the byte selects the symbol. -/
theorem ab_select (b : Nat) :
    [97, 98].getD (b &&& 1) 0 = if b % 2 = 0 then 97 else 98 := by
  have e : b &&& 1 = b % 2 := Nat.and_pow_two_sub_one_eq_mod b 1
  rw [e]
  rcases Nat.mod_two_eq_zero_or_one b with h | h
  · rw [h]; rfl
  · rw [h]; rfl

/-! ## The loop with a cursor that may wrap -/

/-- One pass of the `for` loop, in closed form, when the test `len == buflen`
first succeeds at the `T`-th store. -/
theorem forLoop_target (alphabet : List Nat) (A M buflen : Nat) (bytes : List Nat)
    (T : Nat) (hT : T ≤ 2 ^ 64)
    (hret : ∀ l, l < T → ((l + 1) % 2 ^ 64 = buflen ↔ l + 1 = T))
    (n i : Nat) (st : GenState) (hlen : st.len < T) :
    forLoop alphabet A M buflen bytes n i st =
      if st.len +
          (referenceSymbols alphabet A M
            ((List.range' i n).map (fun k => bytes.getD k 0))).length < T then
        .exhausted
          { len := st.len +
              (referenceSymbols alphabet A M
                ((List.range' i n).map (fun k => bytes.getD k 0))).length
            writes := st.writes ++ List.enumFrom st.len
              (referenceSymbols alphabet A M
                ((List.range' i n).map (fun k => bytes.getD k 0))) }
      else
        .returned
          { len := buflen
            writes := st.writes ++ List.enumFrom st.len
              ((referenceSymbols alphabet A M
                ((List.range' i n).map (fun k => bytes.getD k 0))).take (T - st.len)) } := by
  induction n generalizing i st with
  | zero =>
    simp [forLoop, referenceSymbols_nil, hlen]
  | succ n ih =>
    rw [List.range'_succ, List.map_cons, referenceSymbols_cons]
    unfold forLoop
    by_cases hacc : bytes.getD i 0 &&& M < A
    · have hge : ¬ (bytes.getD i 0 &&& M ≥ A) := by omega
      simp only [hge, if_false, hacc, if_true]
      by_cases hfin : st.len + 1 = T
      · have hb : (st.len + 1) % 2 ^ 64 = buflen := (hret st.len hlen).2 hfin
        have e : T - st.len = 1 := by omega
        simp only [hb, if_true, List.length_cons, e]
        rw [if_neg (by omega)]
        simp [List.enumFrom]
      · have hne : ¬ ((st.len + 1) % 2 ^ 64 = buflen) := fun h => hfin ((hret st.len hlen).1 h)
        have hmod : (st.len + 1) % 2 ^ 64 = st.len + 1 := Nat.mod_eq_of_lt (by omega)
        rw [if_neg hne, hmod]
        rw [ih (i + 1) _ (by simp; omega)]
        simp only [List.length_cons]
        have e1 : ∀ k : Nat, st.len + 1 + k = st.len + (k + 1) := by intro k; omega
        have e2 : T - st.len = (T - (st.len + 1)) + 1 := by omega
        simp only [e1]
        rw [e2, List.take_succ_cons]
        simp [List.enumFrom, List.append_assoc]
    · have hge : bytes.getD i 0 &&& M ≥ A := by omega
      simp only [hge, if_true, hacc, if_false]
      exact ih (i + 1) st hlen

theorem runPasses_nil (alphabet : List Nat) (A M buflen : Nat) (bytes : List Nat)
    (st : GenState) : runPasses alphabet A M buflen [] bytes st = .exhausted st := rfl

/-- While fewer than `T` stores have been made the loop is still running, and
every accepted byte has been stored at the next index. -/
theorem whileLoop_starved_target (alphabet : List Nat) (A M buflen : Nat)
    (T : Nat) (hT : T ≤ 2 ^ 64)
    (hret : ∀ l, l < T → ((l + 1) % 2 ^ 64 = buflen ↔ l + 1 = T))
    (rand : List SysOutcome) (bytes : List Nat) (st : GenState)
    (h : st.len + (referenceSymbols alphabet A M (windows bytes rand).flatten).length < T) :
    whileLoop alphabet A M buflen rand bytes st = none ∧
    runPasses alphabet A M buflen rand bytes st =
      .exhausted
        { len := st.len + (referenceSymbols alphabet A M (windows bytes rand).flatten).length
          writes := st.writes ++ List.enumFrom st.len
            (referenceSymbols alphabet A M (windows bytes rand).flatten) } := by
  induction rand generalizing bytes st with
  | nil =>
    refine ⟨rfl, ?_⟩
    rw [runPasses_nil]
    simp [windows_nil, referenceSymbols_nil]
  | cons o rest ih =>
    simp only [windows_cons, List.flatten_cons, referenceSymbols_append,
      List.length_append] at h ⊢
    have hs := forLoop_target alphabet A M buflen (getrandom bytes 32 o).2 T hT hret 32 0 st
      (by omega)
    rw [if_pos (by unfold window at h; omega)] at hs
    obtain ⟨ih1, ih2⟩ := ih (getrandom bytes 32 o).2
      { len := st.len +
          (referenceSymbols alphabet A M (window (getrandom bytes 32 o).2)).length
        writes := st.writes ++ List.enumFrom st.len
          (referenceSymbols alphabet A M (window (getrandom bytes 32 o).2)) }
      (by simp only; omega)
    constructor
    · unfold whileLoop
      simp only
      rw [hs]
      exact ih1
    · unfold runPasses
      simp only
      rw [hs]
      simp only
      have ih2' := ih2
      unfold window at ih2'
      rw [ih2']
      simp only [window, List.append_assoc, List.enumFrom_append, Nat.add_assoc]

/-- The loop returns in the pass over the first window that brings the number
of stores to `T`. -/
theorem whileLoop_at_target (alphabet : List Nat) (A M buflen : Nat)
    (T : Nat) (hT : T ≤ 2 ^ 64)
    (hret : ∀ l, l < T → ((l + 1) % 2 ^ 64 = buflen ↔ l + 1 = T))
    (r1 : List SysOutcome) (o : SysOutcome) (r2 : List SysOutcome)
    (bytes : List Nat) (st : GenState)
    (h1 : st.len + (referenceSymbols alphabet A M (windows bytes r1).flatten).length < T)
    (h2 : T ≤
      st.len + (referenceSymbols alphabet A M (windows bytes (r1 ++ [o])).flatten).length) :
    whileLoop alphabet A M buflen (r1 ++ o :: r2) bytes st =
      some
        { ok := true
          writes := st.writes ++ List.enumFrom st.len
            ((referenceSymbols alphabet A M (windows bytes (r1 ++ [o])).flatten).take
              (T - st.len))
          rest := r2 } := by
  induction r1 generalizing bytes st with
  | nil =>
    simp only [List.nil_append, windows_cons, windows_nil, List.flatten_cons, List.flatten_nil,
      List.append_nil] at h2 ⊢
    simp only [windows_nil, List.flatten_nil, referenceSymbols_nil, List.length_nil,
      Nat.add_zero] at h1
    unfold whileLoop
    simp only
    have hs := forLoop_target alphabet A M buflen (getrandom bytes 32 o).2 T hT hret 32 0 st h1
    rw [if_neg (by unfold window at h2; omega)] at hs
    rw [hs]
    rfl
  | cons o1 r1 ih =>
    simp only [List.cons_append, windows_cons, List.flatten_cons, referenceSymbols_append,
      List.length_append] at h1 h2 ⊢
    unfold whileLoop
    simp only
    have hs := forLoop_target alphabet A M buflen (getrandom bytes 32 o1).2 T hT hret 32 0 st
      (by omega)
    rw [if_pos (by unfold window at h1; omega)] at hs
    rw [hs]
    simp only
    rw [ih]
    · simp only [Option.some.injEq, Result.mk.injEq, true_and, and_true]
      rw [List.take_append_eq_append_take]
      have hl : (referenceSymbols alphabet A M (window (getrandom bytes 32 o1).2)).length ≤
          T - st.len := by omega
      rw [List.take_of_length_le hl]
      simp only [window, List.append_assoc, List.append_cancel_left_eq]
      rw [List.enumFrom_append]
      rw [Nat.sub_add_eq]
    · simp only
      unfold window at h1
      omega
    · simp only
      unfold window at h2
      omega

/-- The wrap of the cursor: with `buflen = 0` the test `len == buflen` first
succeeds at the `2 ^ 64`-th store. -/
theorem wrap_target (l : Nat) (hl : l < 2 ^ 64) :
    (l + 1) % 2 ^ 64 = 0 ↔ l + 1 = 2 ^ 64 := by
  constructor
  · intro h
    by_contra hne
    have : (l + 1) % 2 ^ 64 = l + 1 := Nat.mod_eq_of_lt (by omega)
    omega
  · intro h
    rw [h, Nat.mod_self]

/-- The loop with `buflen = 0`, started on an empty buffer: it is still running
while fewer than `2 ^ 64` bytes were accepted, each accepted byte having been
stored at the next index from 0 on, and it returns at the `2 ^ 64`-th store. -/
theorem whileLoop_zero (alphabet : List Nat) (A M : Nat) (rand : List SysOutcome)
    (bytes : List Nat) :
    ((referenceSymbols alphabet A M (windows bytes rand).flatten).length < 2 ^ 64 →
      whileLoop alphabet A M 0 rand bytes { len := 0, writes := [] } = none ∧
      runPasses alphabet A M 0 rand bytes { len := 0, writes := [] } =
        .exhausted
          { len := (referenceSymbols alphabet A M (windows bytes rand).flatten).length
            writes := List.enumFrom 0
              (referenceSymbols alphabet A M (windows bytes rand).flatten) }) ∧
    (2 ^ 64 ≤ (referenceSymbols alphabet A M (windows bytes rand).flatten).length →
      ∃ r2, whileLoop alphabet A M 0 rand bytes { len := 0, writes := [] } =
        some
          { ok := true
            writes := List.enumFrom 0
              ((referenceSymbols alphabet A M (windows bytes rand).flatten).take (2 ^ 64))
            rest := r2 }) := by
  constructor
  · intro h
    have := whileLoop_starved_target alphabet A M 0 (2 ^ 64) (le_refl _) wrap_target rand bytes
      { len := 0, writes := [] } (by simpa using h)
    simpa using this
  · intro h
    obtain ⟨r1, o, r2, e, c1, c2⟩ := exists_first_pass alphabet A M rand bytes (2 ^ 64)
      (Nat.two_pow_pos 64) h
    refine ⟨r2, ?_⟩
    have hw := whileLoop_at_target alphabet A M 0 (2 ^ 64) (le_refl _) wrap_target r1 o r2 bytes
      { len := 0, writes := [] } (by simpa using c1) (by simpa using c2)
    rw [e, hw]
    simp only [List.nil_append, Nat.sub_zero, Option.some.injEq, Result.mk.injEq, true_and,
      and_true]
    obtain ⟨b1, hb1⟩ := windows_append bytes (r1 ++ [o]) r2
    have e2 : r1 ++ o :: r2 = (r1 ++ [o]) ++ r2 := by simp
    rw [e2, hb1, List.flatten_append, referenceSymbols_append, List.take_append_of_le_length c2]

/-! ## The default alphabet under the mask 63 -/

/-- Under the mask 63 a byte selects the default symbol at index `b mod 64`. -/
theorem default_select (b : Nat) :
    default_alphabet.getD (b &&& 63) 0 = default_symbols.getD (b % 64) 0 ∧
      default_alphabet.getD (b &&& 63) 0 ∈ default_symbols := by
  have e : b &&& 63 = b % 64 := Nat.and_pow_two_sub_one_eq_mod b 6
  have hlt : b % 64 < 64 := Nat.mod_lt _ (by decide)
  rw [e]
  refine ⟨?_, default_getD_mem _ hlt⟩
  unfold default_alphabet
  rw [List.getD_append _ _ _ _ (by rw [default_symbols_length]; exact hlt)]

/-- The call with the `NULL` alphabet in closed form: with `1 ≤ L` it returns
once the outcomes supply `L` bytes, having stored the default symbols selected
by the first `L` bytes read, and is still looping otherwise. -/
theorem generate_r_null_closed (gnuc : Bool) (stack : List Nat) (L A : Nat)
    (rand : List SysOutcome) (h1 : 1 ≤ L) (h64 : L < 2 ^ 64) :
    (L ≤ 32 * rand.length →
      ∃ rest, nanoid_generate_r gnuc stack L none A rand =
        some
          { ok := true
            writes := List.enumFrom 0
              (((windows stack rand).flatten.take L).map
                (fun b => default_alphabet.getD (b &&& 63) 0))
            rest := rest }) ∧
    (32 * rand.length < L → nanoid_generate_r gnuc stack L none A rand = none) := by
  have hall : ∀ b : Nat, b &&& 63 < 64 := fun b => Nat.lt_succ_of_le Nat.and_le_right
  have hcount := referenceSymbols_length_of_all default_alphabet 64 63 hall
    (windows stack rand).flatten
  rw [windows_flatten_length] at hcount
  obtain ⟨hn, hs⟩ := whileLoop_closed default_alphabet 64 63 L (by omega) h64 rand stack
  rw [generate_r_null, computeMask_64]
  constructor
  · intro hlen
    obtain ⟨r2, hr2⟩ := hs (by omega)
    refine ⟨r2, ?_⟩
    rw [hr2, referenceSymbols_of_all default_alphabet 64 63 hall, List.map_take]
  · intro hlen
    exact hn (by omega)

/-! ## The claims -/

/-- C1: when a call of `nanoid_generate_r` with a length `1 ≤ L` (a `size_t`)
returns the buffer, it has made exactly `L` stores, at the positions
`0, 1, ..., L - 1` in this order, and every stored symbol is a member of the
supplied alphabet, or of the 64 default symbols when the alphabet is `NULL`. -/
theorem generate_r_success_writes (gnuc : Bool) (stack : List Nat) (L : Nat)
    (alphabet : Option (List Nat)) (A : Nat) (rand : List SysOutcome) (r : Result)
    (hL : 1 ≤ L) (hL64 : L < 2 ^ 64)
    (hcnt : ∀ a, alphabet = some a → a.length = A)
    (h : nanoid_generate_r gnuc stack L alphabet A rand = some r) (hok : r.ok = true) :
    r.writes.length = L ∧ r.writes.map Prod.fst = List.range L ∧
      ∀ w ∈ r.writes, w.2 ∈ symbolsOf alphabet := by
  obtain ⟨_, _, hw⟩ := generate_r_ok_loop gnuc stack L alphabet A rand r h hok
  obtain ⟨_, _, _, hlen, hidx⟩ := whileLoop_shape _ _ _ L (by omega) hL64 rand stack r hw
  refine ⟨hlen, hidx, ?_⟩
  cases alphabet with
  | none => exact whileLoop_mem_default _ L rand stack r hw
  | some a =>
    exact whileLoop_mem_alphabet a A _ L (by rw [hcnt a rfl]) rand stack r hw

/-- Witness for C1: the alphabet `abc`, length 3, one block of bytes `0..31`. -/
theorem generate_r_success_writes_witness :
    nanoid_generate_r true (List.replicate 32 0) 3 (some [97, 98, 99]) 3
        [SysOutcome.filled (List.range 32)] =
      some { ok := true, writes := [(0, 97), (1, 98), (2, 99)], rest := [] } ∧
    [(0, 97), (1, 98), (2, 99)].map Prod.fst = List.range 3 ∧
    ∀ w ∈ [((0 : Nat), (97 : Nat)), (1, 98), (2, 99)], w.2 ∈ symbolsOf (some [97, 98, 99]) :=
  ⟨by decide,
   (generate_r_success_writes true (List.replicate 32 0) 3 (some [97, 98, 99]) 3
      [SysOutcome.filled (List.range 32)]
      { ok := true, writes := [(0, 97), (1, 98), (2, 99)], rest := [] }
      (by decide) (by decide) (by intro a ha; cases ha; rfl) (by decide) rfl).2⟩

/-- C2 (as stated, refuted): with a supplied alphabet of count 255 (the bytes
`1..255`) the call is not rejected: it makes one entropy call and stores the
symbol at index 254. -/
theorem generate_r_count_255_accepted :
    (255 : Nat) ≥ 255 ∧
    nanoid_generate_r true (List.replicate 32 0) 1 (some (List.range' 1 255)) 255
        [SysOutcome.filled (List.replicate 32 254)] =
      some { ok := true, writes := [(0, 255)], rest := [] } := by
  decide

/-- C2 (amended): for a supplied alphabet whose count is 0, 1, or 256 or more,
`nanoid_generate_r` returns `NULL`, leaves every entropy outcome unconsumed
(no entropy call), and makes no store into the buffer. -/
theorem generate_r_rejects_count (gnuc : Bool) (stack : List Nat) (L : Nat) (a : List Nat)
    (A : Nat) (rand : List SysOutcome) (h : A = 0 ∨ A = 1 ∨ 256 ≤ A) :
    nanoid_generate_r gnuc stack L (some a) A rand =
      some { ok := false, writes := [], rest := rand } :=
  generate_r_invalid gnuc stack L a A rand (by omega)

/-- Witness for C2 (amended): a supplied alphabet of count 256. -/
theorem generate_r_rejects_count_witness :
    nanoid_generate_r true (List.replicate 32 0) 5 (some (List.range 256)) 256
        [SysOutcome.filled (List.range 32)] =
      some { ok := false, writes := [], rest := [SysOutcome.filled (List.range 32)] } :=
  generate_r_rejects_count true (List.replicate 32 0) 5 (List.range 256) 256
    [SysOutcome.filled (List.range 32)] (by decide)

/-- C3: for a supplied alphabet, `nanoid_generate_r` returns `NULL` exactly
when the count is outside `2..255`: a count in `2..255` enters the generation
loop with the mask of that count and never yields `NULL`, and a count of 0, 1,
or 256 and above yields `NULL` at once. -/
theorem generate_r_accepts_iff (gnuc : Bool) (stack : List Nat) (L : Nat) (a : List Nat)
    (A : Nat) (rand : List SysOutcome) :
    (2 ≤ A ∧ A ≤ 255 →
      nanoid_generate_r gnuc stack L (some a) A rand =
        whileLoop a A (computeMask gnuc A) L rand stack { len := 0, writes := [] }) ∧
    (A ≤ 1 ∨ 256 ≤ A →
      nanoid_generate_r gnuc stack L (some a) A rand =
        some { ok := false, writes := [], rest := rand }) ∧
    ((∃ r, nanoid_generate_r gnuc stack L (some a) A rand = some r ∧ r.ok = false) ↔
      ¬ (2 ≤ A ∧ A ≤ 255)) := by
  refine ⟨fun hv => generate_r_valid gnuc stack L a A rand hv.1 hv.2,
    fun hi => generate_r_invalid gnuc stack L a A rand hi, ?_⟩
  constructor
  · rintro ⟨r, hr, hf⟩ hv
    rw [generate_r_valid gnuc stack L a A rand hv.1 hv.2] at hr
    have := whileLoop_ok _ _ _ _ _ _ _ r hr
    rw [hf] at this
    exact absurd this (by decide)
  · intro hv
    exact ⟨_, generate_r_invalid gnuc stack L a A rand (by omega), rfl⟩

/-- C4: with the `NULL` alphabet, `nanoid_generate_r` ignores the count
argument: for every count it runs the generation loop on the default array
with count 64 and mask 63, as the call with that array and count 64 does; it
never returns `NULL`; for a length `1 ≤ L` it returns once the outcomes supply
`L` bytes, having stored at positions `0..L-1` the default symbols selected by
the first `L` bytes read (the symbol at index `b mod 64` for the byte `b`), and
is still looping otherwise; every stored symbol is one of the 64 characters
`A-Z a-z 0-9 - _`. -/
theorem generate_r_null_alphabet (gnuc : Bool) (stack : List Nat) (L A : Nat)
    (rand : List SysOutcome) :
    nanoid_generate_r gnuc stack L none A rand =
        nanoid_generate_r gnuc stack L (some default_alphabet) 64 rand ∧
    (∀ r, nanoid_generate_r gnuc stack L none A rand = some r →
      r.ok = true ∧ ∀ w ∈ r.writes, w.2 ∈ default_symbols) ∧
    default_symbols.length = 64 ∧
    (∀ s, s ∈ default_symbols ↔
      (65 ≤ s ∧ s ≤ 90) ∨ (97 ≤ s ∧ s ≤ 122) ∨ (48 ≤ s ∧ s ≤ 57) ∨ s = 45 ∨ s = 95) ∧
    (1 ≤ L → L < 2 ^ 64 → L ≤ 32 * rand.length →
      ∃ r, nanoid_generate_r gnuc stack L none A rand = some r) ∧
    nanoid_generate_r gnuc stack L none A rand =
      whileLoop default_alphabet 64 63 L rand stack { len := 0, writes := [] } ∧
    (1 ≤ L → L < 2 ^ 64 → L ≤ 32 * rand.length →
      ∃ rest, nanoid_generate_r gnuc stack L none A rand =
        some
          { ok := true
            writes := List.enumFrom 0
              (((windows stack rand).flatten.take L).map
                (fun b => default_alphabet.getD (b &&& 63) 0))
            rest := rest }) ∧
    (1 ≤ L → L < 2 ^ 64 → 32 * rand.length < L →
      nanoid_generate_r gnuc stack L none A rand = none) ∧
    (∀ b, default_alphabet.getD (b &&& 63) 0 = default_symbols.getD (b % 64) 0 ∧
      default_alphabet.getD (b &&& 63) 0 ∈ default_symbols) ∧
    (∀ blk, blk.length = 32 → 1 ≤ L → L ≤ 32 →
      nanoid_generate_r gnuc stack L none A [SysOutcome.filled blk] =
        some
          { ok := true
            writes := List.enumFrom 0
              ((blk.take L).map (fun b => default_alphabet.getD (b &&& 63) 0))
            rest := [] }) := by
  refine ⟨?_, ?_, default_symbols_length, mem_default_symbols_iff, ?_, ?_, ?_, ?_,
    default_select, ?_⟩
  · rw [generate_r_null, generate_r_valid gnuc stack L default_alphabet 64 rand (by decide)
      (by decide)]
  · intro r hr
    rw [generate_r_null] at hr
    exact ⟨whileLoop_ok _ _ _ _ _ _ _ r hr, whileLoop_mem_default _ L rand stack r hr⟩
  · intro h1 h64 hlen
    obtain ⟨rest, hr⟩ := (generate_r_null_closed gnuc stack L A rand h1 h64).1 hlen
    exact ⟨_, hr⟩
  · rw [generate_r_null, computeMask_64]
  · intro h1 h64 hlen
    exact (generate_r_null_closed gnuc stack L A rand h1 h64).1 hlen
  · intro h1 h64 hlen
    exact (generate_r_null_closed gnuc stack L A rand h1 h64).2 hlen
  · intro blk hblk h1 h32
    have hall : ∀ b : Nat, b &&& 63 < 64 := fun b => Nat.lt_succ_of_le Nat.and_le_right
    have hw := whileLoop_all_accepted default_alphabet 64 63 L h1
      (lt_of_le_of_lt h32 (by decide)) hall stack [blk]
      (by intro x hx; simp only [List.mem_singleton] at hx; rw [hx]; exact hblk)
      (by simpa using h32)
    rw [generate_r_null, computeMask_64]
    have e : [SysOutcome.filled blk] = [blk].map SysOutcome.filled := rfl
    rw [e, hw]
    have hd : (L + 31) / 32 = 1 := by omega
    simp [hd]

/-- Witness for C4: the `NULL` alphabet with the count arguments 0, 1 and 300,
length 3, one block of bytes `0..31`: each call returns the buffer holding
`ABC`, the default symbols at the indices 0, 1, 2. -/
theorem generate_r_null_alphabet_witness :
    nanoid_generate_r true (List.replicate 32 0) 3 none 0 [SysOutcome.filled (List.range 32)] =
      some
        { ok := true
          writes := List.enumFrom 0
            (((List.range 32).take 3).map (fun b => default_alphabet.getD (b &&& 63) 0))
          rest := [] } ∧
    List.enumFrom 0
        (((List.range 32).take 3).map (fun b => default_alphabet.getD (b &&& 63) 0)) =
      [(0, 65), (1, 66), (2, 67)] ∧
    nanoid_generate_r true (List.replicate 32 0) 3 none 1 [SysOutcome.filled (List.range 32)] =
      some { ok := true, writes := [(0, 65), (1, 66), (2, 67)], rest := [] } ∧
    nanoid_generate_r false (List.replicate 32 0) 3 none 300
        [SysOutcome.filled (List.range 32)] =
      some { ok := true, writes := [(0, 65), (1, 66), (2, 67)], rest := [] } ∧
    nanoid_generate_r true (List.replicate 32 0) 2 none 0
        [SysOutcome.filled (List.replicate 32 255)] =
      some { ok := true, writes := [(0, 95), (1, 95)], rest := [] } :=
  ⟨(generate_r_null_alphabet true (List.replicate 32 0) 3 0
      [SysOutcome.filled (List.range 32)]).2.2.2.2.2.2.2.2.2 (List.range 32) (by decide)
      (by decide) (by decide),
   by decide, by decide, by decide, by decide⟩

/-- C5: `nanoid_generate` returns `NULL` exactly when `nanoid_generate_r`, called
with length `NANOID_SIZE = 21` and the same alphabet arguments, returns `NULL`,
and returns its buffer exactly when that call returns the buffer; the buffer
then holds 21 symbols of the alphabet at positions `0..20` and the NUL at
position 21, and with the default alphabet its string length is 21. -/
theorem generate_terminated (gnuc : Bool) (stack sbuf : List Nat)
    (alphabet : Option (List Nat)) (A : Nat) (rand : List SysOutcome)
    (hs : sbuf.length = NANOID_SIZE + 1)
    (hcnt : ∀ a, alphabet = some a → a.length = A) :
    (nanoid_generate gnuc stack sbuf alphabet A rand = some none ↔
      ∃ r, nanoid_generate_r gnuc stack NANOID_SIZE alphabet A rand = some r ∧ r.ok = false) ∧
    ((∃ b, nanoid_generate gnuc stack sbuf alphabet A rand = some (some b)) ↔
      ∃ r, nanoid_generate_r gnuc stack NANOID_SIZE alphabet A rand = some r ∧ r.ok = true) ∧
    (∀ b, nanoid_generate gnuc stack sbuf alphabet A rand = some (some b) →
      ∃ syms, b = syms ++ [0] ∧ syms.length = 21 ∧ b.length = 22 ∧
        (∀ s ∈ syms, s ∈ symbolsOf alphabet) ∧
        (alphabet = none → strlen b = 21)) := by
  unfold nanoid_generate
  cases h : nanoid_generate_r gnuc stack NANOID_SIZE alphabet A rand with
  | none => simp
  | some r =>
    by_cases hok : r.ok = true
    · have hno : ¬ (r.ok = false) := by simp [hok]
      obtain ⟨syms, hw, hl, hmem⟩ := generate_r_ok_syms gnuc stack NANOID_SIZE alphabet A rand r
        (by decide) (by decide) hcnt h hok
      have hbuf := terminated_buffer sbuf syms hs hl
      simp only [hno, if_false, Option.some.injEq, reduceCtorEq, false_iff, not_exists, not_and]
      refine ⟨fun x hx => by rw [← hx]; simp [hok], ⟨fun _ => ⟨r, rfl, hok⟩, fun _ => ⟨_, rfl⟩⟩, ?_⟩
      intro b hb
      rw [hw, hbuf] at hb
      subst hb
      refine ⟨syms, rfl, hl, by simp [hl, NANOID_SIZE], hmem, ?_⟩
      intro hnone
      rw [strlen_append_zero syms, hl]
      · rfl
      · intro s hs0 h0
        have := hmem s hs0
        rw [hnone, h0] at this
        exact zero_not_mem_default_symbols this
    · have hf : r.ok = false := by simpa using hok
      simp [hf]

/-- Witness for C5: the default alphabet and one block of bytes `0..31`; the
static buffer ends up holding `ABCDEFGHIJKLMNOPQRSTU` and the NUL. -/
theorem generate_terminated_witness :
    ∃ syms, [65, 66, 67, 68, 69, 70, 71, 72, 73, 74, 75, 76, 77, 78, 79, 80, 81, 82, 83, 84, 85, 0]
        = syms ++ [0] ∧ syms.length = 21 ∧
      [65, 66, 67, 68, 69, 70, 71, 72, 73, 74, 75, 76, 77, 78, 79, 80, 81, 82, 83, 84, 85, 0].length
        = 22 ∧
      (∀ s ∈ syms, s ∈ symbolsOf none) ∧
      ((none : Option (List Nat)) = none →
        strlen [65, 66, 67, 68, 69, 70, 71, 72, 73, 74, 75, 76, 77, 78, 79, 80, 81, 82, 83, 84,
          85, 0] = 21) :=
  (generate_terminated true (List.replicate 32 0) (List.replicate 22 7) none 0
    [SysOutcome.filled (List.range 32)] (by decide) (by intro a ha; cases ha)).2.2 _ (by decide)

/-- C6 (the code at the failing input): `getrandom` fails on the first call
(value -1, scratch array untouched), yet `nanoid_generate_r` consumes the stale
scratch bytes and returns the buffer, whatever the scratch array holds; and
when the stale bytes are all rejected it calls `getrandom` again instead of
returning `NULL`. -/
theorem generate_r_ignores_entropy_failure :
    (∀ (gnuc : Bool) (stack : List Nat) (cnt : Nat),
      (getrandom stack 32 SysOutcome.fail).1 = -1 ∧
      ∃ r, nanoid_generate_r gnuc stack 1 none cnt [SysOutcome.fail] = some r ∧
        r.ok = true) ∧
    nanoid_generate_r true (List.replicate 32 0) 1 none 0 [SysOutcome.fail] =
      some { ok := true, writes := [(0, 65)], rest := [] } ∧
    nanoid_generate_r false (List.replicate 32 0) 1 none 0 [SysOutcome.fail] =
      some { ok := true, writes := [(0, 65)], rest := [] } ∧
    nanoid_generate_r true (List.replicate 32 3) 1 (some [97, 98, 99]) 3
        [SysOutcome.fail, SysOutcome.filled (List.replicate 32 1)] =
      some { ok := true, writes := [(0, 98)], rest := [] } := by
  refine ⟨?_, by decide, by decide, by decide⟩
  intro gnuc stack cnt
  refine ⟨rfl, ?_⟩
  rw [generate_r_null, computeMask_64]
  have hall : ∀ b : Nat, b &&& 63 < 64 := fun b => Nat.lt_succ_of_le Nat.and_le_right
  have hcount := referenceSymbols_length_of_all default_alphabet 64 63 hall
    (windows stack [SysOutcome.fail]).flatten
  rw [windows_flatten_length] at hcount
  obtain ⟨r2, hr2⟩ := (whileLoop_closed default_alphabet 64 63 1 (by decide) (by decide)
    [SysOutcome.fail] stack).2 (by rw [hcount]; decide)
  exact ⟨_, hr2, rfl⟩

/-- C7: for a count `2 ≤ A ≤ 255` with mask `M`, every index `j < A` is selected
by exactly `256 / (M + 1)` of the 256 byte values (those with `b & M = j`, which
pass the test `(b & M) < A`), and `A * (256 / (M + 1))` byte values are accepted
in all; hence for an alphabet of `A` distinct symbols, feeding each byte value
once yields every symbol the same number of times, a share of exactly `1 / A`
of the accepted bytes. -/
theorem selection_uniform (gnuc : Bool) (A : Nat) (h2 : 2 ≤ A) (h255 : A ≤ 255) :
    (∀ j, j < A →
      Nat.count (fun b => b &&& computeMask gnuc A = j ∧ b &&& computeMask gnuc A < A) 256 =
        256 / (computeMask gnuc A + 1)) ∧
    Nat.count (fun b => b &&& computeMask gnuc A < A) 256 =
      A * (256 / (computeMask gnuc A + 1)) ∧
    0 < 256 / (computeMask gnuc A + 1) ∧
    (∀ alphabet : List Nat, alphabet.length = A → alphabet.Nodup → ∀ s ∈ alphabet,
      (referenceSymbols alphabet A (computeMask gnuc A) (List.range 256)).count s =
        256 / (computeMask gnuc A + 1) ∧
      (referenceSymbols alphabet A (computeMask gnuc A) (List.range 256)).length =
        A * (256 / (computeMask gnuc A + 1)) ∧
      (((referenceSymbols alphabet A (computeMask gnuc A) (List.range 256)).count s : ℚ) /
          ((referenceSymbols alphabet A (computeMask gnuc A) (List.range 256)).length : ℚ) =
        1 / (A : ℚ))) := by
  obtain ⟨hm, hk, _⟩ := computeMask_eq gnuc A h2 h255
  have hle := le_computeMask gnuc A h2 h255
  have hpos : 0 < 2 ^ ((A - 1).log2 + 1) := Nat.two_pow_pos _
  have hM1 : computeMask gnuc A + 1 = 2 ^ ((A - 1).log2 + 1) := by omega
  have hA : A ≤ 2 ^ ((A - 1).log2 + 1) := by omega
  have hcpos : 0 < 256 / 2 ^ ((A - 1).log2 + 1) := by
    apply Nat.div_pos _ hpos
    have : (2 : Nat) ^ ((A - 1).log2 + 1) ≤ 2 ^ 8 := Nat.pow_le_pow_right (by decide) hk
    simpa using this
  have hidx : ∀ j, j < A →
      (List.range 256).countP (fun b => decide (b &&& computeMask gnuc A = j)) =
        256 / 2 ^ ((A - 1).log2 + 1) := by
    intro j hj
    rw [hm]
    exact countP_land_eq _ j hk (by omega)
  have htot : (List.range 256).countP (fun b => decide (b &&& computeMask gnuc A < A)) =
      A * (256 / 2 ^ ((A - 1).log2 + 1)) := by
    rw [hm]
    exact countP_land_lt _ A hk hA
  rw [hM1]
  refine ⟨?_, ?_, hcpos, ?_⟩
  · intro j hj
    rw [← hidx j hj]
    unfold Nat.count
    apply List.countP_congr
    intro b _
    simp only [decide_eq_true_eq]
    constructor
    · exact fun h => h.1
    · exact fun h => ⟨h, by omega⟩
  · rw [← htot]
    rfl
  · intro alphabet hlen hnd s hs
    obtain ⟨j, hj, hsj⟩ := List.getElem_of_mem hs
    have hjA : j < A := by omega
    have hcount : (referenceSymbols alphabet A (computeMask gnuc A) (List.range 256)).count s =
        256 / 2 ^ ((A - 1).log2 + 1) := by
      rw [← hidx j hjA]
      unfold referenceSymbols
      rw [List.count_eq_countP, List.countP_map, List.countP_filter]
      apply List.countP_congr
      intro b _
      simp only [Function.comp_apply, Bool.and_eq_true, beq_iff_eq, decide_eq_true_eq]
      constructor
      · rintro ⟨he, hlt⟩
        apply getD_inj_of_nodup alphabet hnd _ _ (by omega) hj
        rw [he, List.getD_eq_getElem alphabet 0 hj, hsj]
      · intro he
        rw [he, List.getD_eq_getElem alphabet 0 hj]
        exact ⟨hsj, hjA⟩
    have hlength : (referenceSymbols alphabet A (computeMask gnuc A) (List.range 256)).length =
        A * (256 / 2 ^ ((A - 1).log2 + 1)) := by
      rw [← htot]
      unfold referenceSymbols
      rw [List.length_map, List.countP_eq_length_filter]
    refine ⟨hcount, hlength, ?_⟩
    rw [hcount, hlength]
    have hc0 : ((256 / 2 ^ ((A - 1).log2 + 1) : Nat) : ℚ) ≠ 0 := by
      exact_mod_cast (Nat.pos_iff_ne_zero.1 hcpos)
    have hA0 : (A : ℚ) ≠ 0 := by
      have : A ≠ 0 := by omega
      exact_mod_cast this
    rw [Nat.cast_mul]
    field_simp
    ring

/-- Witness for C7: the count 3 (mask 3): each index is selected by 64 byte
values and 192 byte values are accepted. -/
theorem selection_uniform_witness :
    Nat.count (fun b => b &&& computeMask true 3 < 3) 256 = 3 * (256 / (computeMask true 3 + 1)) ∧
    0 < 256 / (computeMask true 3 + 1) :=
  ⟨(selection_uniform true 3 (by decide) (by decide)).2.1,
   (selection_uniform true 3 (by decide) (by decide)).2.2.1⟩

/-- C8 (the code at the failing input): built with `HAVE_GETRANDOM`,
`generate_randombytes` returns the byte count 32, not 0, when all 32 bytes were
filled, and returns 3 after a fill of 3 bytes out of 32 without calling the
facility again. -/
theorem generate_randombytes_getrandom_count :
    generate_randombytes (Facility.getrandom (SysOutcome.filled (List.replicate 32 7)))
        (List.replicate 32 0) 32 =
      some { ret := 32, buf := List.replicate 32 7, closed := none } ∧
    generate_randombytes (Facility.getrandom (SysOutcome.filled [7, 7, 7]))
        (List.replicate 32 0) 32 =
      some { ret := 3, buf := [7, 7, 7] ++ List.replicate 29 0, closed := none } ∧
    generate_randombytes
        (Facility.urandom 3 [ReadOutcome.got [7, 7, 7], ReadOutcome.got (List.replicate 29 7)])
        (List.replicate 32 0) 32 =
      some { ret := 0, buf := List.replicate 32 7, closed := some 3 } := by
  decide

/-- C9: for a count `2 ≤ A ≤ 255` and either branch of `roundup2`, the mask
`roundup2(A) - 1` has the form `2 ^ k - 1`, is at least `A - 1`, and is at most
every value `2 ^ j - 1` that is at least `A - 1`; `roundup2(A)` is the least
power of two that is at least `A`; the mask is at least 1; and the two branches
of `roundup2` agree on every 32-bit input. -/
theorem mask_least_all_ones (gnuc : Bool) (A : Nat) (h2 : 2 ≤ A) (h255 : A ≤ 255) :
    (∃ k, computeMask gnuc A = 2 ^ k - 1) ∧
    A - 1 ≤ computeMask gnuc A ∧
    (∀ j, A - 1 ≤ 2 ^ j - 1 → computeMask gnuc A ≤ 2 ^ j - 1) ∧
    computeMask gnuc A = roundup2 gnuc A - 1 ∧
    (∃ k, roundup2 gnuc A = 2 ^ k) ∧
    A ≤ roundup2 gnuc A ∧
    (∀ j, A ≤ 2 ^ j → roundup2 gnuc A ≤ 2 ^ j) ∧
    1 ≤ computeMask gnuc A ∧
    (∀ v, v < 2 ^ 32 → roundup2 true v = roundup2 false v) := by
  obtain ⟨hm, hk, hr⟩ := computeMask_eq gnuc A h2 h255
  have hlt : A - 1 < 2 ^ ((A - 1).log2 + 1) := Nat.lt_log2_self
  have hge : 2 ^ (A - 1).log2 ≤ A - 1 := Nat.log2_self_le (by omega)
  have key : ∀ j, A ≤ 2 ^ j → 2 ^ ((A - 1).log2 + 1) ≤ 2 ^ j := by
    intro j hj
    apply Nat.pow_le_pow_right (by decide)
    by_contra hcon
    have : 2 ^ j ≤ 2 ^ (A - 1).log2 := Nat.pow_le_pow_right (by decide) (by omega)
    omega
  have h2k : 2 ≤ 2 ^ ((A - 1).log2 + 1) := by
    have : 2 ^ 1 ≤ 2 ^ ((A - 1).log2 + 1) := Nat.pow_le_pow_right (by decide) (by omega)
    simpa using this
  refine ⟨⟨_, hm⟩, by omega, ?_, by rw [hm, hr], ⟨_, hr⟩, by omega, ?_, by omega,
    fun v hv => roundup2_variants v hv⟩
  · intro j hj
    have hpos : 0 < 2 ^ j := Nat.two_pow_pos j
    have := key j (by omega)
    omega
  · intro j hj
    rw [hr]
    exact key j hj

/-- Witness for C9: the count 62 of the alphanumeric alphabet, whose mask is 63. -/
theorem mask_least_all_ones_witness :
    computeMask true 62 = 63 ∧ 62 - 1 ≤ computeMask true 62 ∧ 1 ≤ computeMask true 62 :=
  ⟨by decide,
   (mask_least_all_ones true 62 (by decide) (by decide)).2.1,
   (mask_least_all_ones true 62 (by decide) (by decide)).2.2.2.2.2.2.2.1⟩

/-- C10: for a supplied alphabet with count `2 ≤ A ≤ 255` and mask `M`, a length
`1 ≤ L`, and entropy delivered in full 32-byte blocks, let the reference
sequence be `alphabet[b & M]` over exactly the stream bytes `b` with
`(b & M) < A`, in stream order.  If it has at least `L` elements,
`nanoid_generate_r` returns the buffer holding its first `L` elements at
positions `0..L-1`; if it has fewer, the call is still looping when the blocks
run out.  Every stored symbol is `alphabet[j]` for an index `j < A`, and a byte
with `(b & M) ≥ A` yields no symbol.  When the stream is split at the byte `b`
that produces the `L`-th symbol, the stores are determined by the stream up to
`b` alone and every block after the one holding `b` is left unread.  The call
with the `NULL` alphabet is the call with the default array and count 64. -/
theorem generate_r_reference (gnuc : Bool) (stack : List Nat) (L : Nat) (a : List Nat)
    (A : Nat) (blocks : List (List Nat)) (h2 : 2 ≤ A) (h255 : A ≤ 255) (hL : 1 ≤ L)
    (hL64 : L < 2 ^ 64) (hblk : ∀ blk ∈ blocks, blk.length = 32) :
    referenceSymbols a A (computeMask gnuc A) blocks.flatten =
      (blocks.flatten.filter (fun b => b &&& computeMask gnuc A < A)).map
        (fun b => a.getD (b &&& computeMask gnuc A) 0) ∧
    (L ≤ (referenceSymbols a A (computeMask gnuc A) blocks.flatten).length →
      ∃ rest, nanoid_generate_r gnuc stack L (some a) A (blocks.map SysOutcome.filled) =
        some
          { ok := true
            writes := List.enumFrom 0
              ((referenceSymbols a A (computeMask gnuc A) blocks.flatten).take L)
            rest := rest }) ∧
    ((referenceSymbols a A (computeMask gnuc A) blocks.flatten).length < L →
      nanoid_generate_r gnuc stack L (some a) A (blocks.map SysOutcome.filled) = none) ∧
    (∀ r, nanoid_generate_r gnuc stack L (some a) A (blocks.map SysOutcome.filled) = some r →
      ∀ w ∈ r.writes, ∃ j, j < A ∧ w.2 = a.getD j 0) ∧
    (∀ b, A ≤ b &&& computeMask gnuc A →
      referenceSymbols a A (computeMask gnuc A) [b] = []) ∧
    (∀ pre b post, blocks.flatten = pre ++ b :: post →
      (referenceSymbols a A (computeMask gnuc A) pre).length + 1 = L →
      b &&& computeMask gnuc A < A →
      nanoid_generate_r gnuc stack L (some a) A (blocks.map SysOutcome.filled) =
        some
          { ok := true
            writes := List.enumFrom 0 (referenceSymbols a A (computeMask gnuc A) (pre ++ [b]))
            rest := (blocks.drop (pre.length / 32 + 1)).map SysOutcome.filled }) ∧
    (∀ cnt, nanoid_generate_r gnuc stack L none cnt (blocks.map SysOutcome.filled) =
      nanoid_generate_r gnuc stack L (some default_alphabet) 64
        (blocks.map SysOutcome.filled)) := by
  have hnull : ∀ cnt, nanoid_generate_r gnuc stack L none cnt (blocks.map SysOutcome.filled) =
      nanoid_generate_r gnuc stack L (some default_alphabet) 64
        (blocks.map SysOutcome.filled) := by
    intro cnt
    rw [generate_r_null, generate_r_valid gnuc stack L default_alphabet 64 _ (by decide)
      (by decide)]
  rw [generate_r_valid gnuc stack L a A _ h2 h255]
  obtain ⟨hn, hs⟩ := whileLoop_closed a A (computeMask gnuc A) L (by omega) hL64
    (blocks.map SysOutcome.filled) stack
  rw [windows_filled stack blocks hblk] at hn hs
  refine ⟨rfl, hs, hn, ?_, ?_, ?_, hnull⟩
  · intro r hr
    exact whileLoop_symbols a A _ L _ stack _ r (by simp) hr
  · intro b hb
    rw [referenceSymbols_cons, if_neg (by omega), referenceSymbols_nil]
  · intro pre b post hsplit hcount hacc
    exact whileLoop_split a A _ L hL64 stack blocks hblk pre b post hsplit hcount hacc

/-- Witness for C10: the alphabet `abc` (mask 3), length 2, one block of bytes
`0..31`; the second symbol comes from the byte 1, after the prefix `[0]`. -/
theorem generate_r_reference_witness :
    nanoid_generate_r true (List.replicate 32 0) 2 (some [97, 98, 99]) 3
        ([List.range 32].map SysOutcome.filled) =
      some
        { ok := true
          writes := List.enumFrom 0
            (referenceSymbols [97, 98, 99] 3 (computeMask true 3) ([0] ++ [1]))
          rest := ([List.range 32].drop ([0].length / 32 + 1)).map SysOutcome.filled } :=
  (generate_r_reference true (List.replicate 32 0) 2 [97, 98, 99] 3 [List.range 32]
    (by decide) (by decide) (by decide) (by decide) (by decide)).2.2.2.2.2.1
    [0] 1 (List.range' 2 30) (by decide) (by decide) (by decide)

/-- C11: for a supplied alphabet whose count is a power of two `2 ^ k` in
`2..128` (mask `2 ^ k - 1`), and for the default alphabet (count 64, mask 63),
every byte passes the test `(b & mask) < A`, so no byte is discarded: with a
length `1 ≤ L` and at least `⌈L / 32⌉` full blocks, output position `i` holds
`alphabet[byte_i & (A - 1)]` for the `i`-th byte of the stream, and exactly
`⌈L / 32⌉ = (L + 31) / 32` blocks are consumed.  For the alphabet `ab` each
symbol is `a` or `b` according to the low bit of its byte. -/
theorem power_of_two_no_discard (gnuc : Bool) (stack : List Nat) (L : Nat) (a : List Nat)
    (k : Nat) (blocks : List (List Nat)) (hk1 : 1 ≤ k) (hk7 : k ≤ 7) (hL : 1 ≤ L)
    (hL64 : L < 2 ^ 64) (hblk : ∀ blk ∈ blocks, blk.length = 32)
    (hen : L ≤ 32 * blocks.length) :
    computeMask gnuc (2 ^ k) = 2 ^ k - 1 ∧
    computeMask gnuc 64 = 63 ∧
    (∀ b, b &&& computeMask gnuc (2 ^ k) < 2 ^ k) ∧
    (∀ b, b &&& computeMask gnuc 64 < 64) ∧
    (∀ bs, referenceSymbols a (2 ^ k) (computeMask gnuc (2 ^ k)) bs =
      bs.map (fun b => a.getD (b &&& (2 ^ k - 1)) 0)) ∧
    nanoid_generate_r gnuc stack L (some a) (2 ^ k) (blocks.map SysOutcome.filled) =
      some
        { ok := true
          writes := List.enumFrom 0
            ((blocks.flatten.take L).map (fun b => a.getD (b &&& (2 ^ k - 1)) 0))
          rest := (blocks.drop ((L + 31) / 32)).map SysOutcome.filled } ∧
    (∀ cnt, nanoid_generate_r gnuc stack L none cnt (blocks.map SysOutcome.filled) =
      some
        { ok := true
          writes := List.enumFrom 0
            ((blocks.flatten.take L).map (fun b => default_alphabet.getD (b &&& 63) 0))
          rest := (blocks.drop ((L + 31) / 32)).map SysOutcome.filled }) ∧
    ((blocks.map SysOutcome.filled).length -
        ((blocks.drop ((L + 31) / 32)).map SysOutcome.filled).length = (L + 31) / 32 ∧
      32 * ((L + 31) / 32 - 1) < L ∧ L ≤ 32 * ((L + 31) / 32)) ∧
    nanoid_generate_r gnuc stack L (some [97, 98]) 2 (blocks.map SysOutcome.filled) =
      some
        { ok := true
          writes := List.enumFrom 0
            ((blocks.flatten.take L).map (fun b => if b % 2 = 0 then 97 else 98))
          rest := (blocks.drop ((L + 31) / 32)).map SysOutcome.filled } := by
  have hmask := computeMask_two_pow gnuc k hk1 hk7
  have hle : (2 : Nat) ^ k ≤ 2 ^ 7 := Nat.pow_le_pow_right (by decide) hk7
  have hge : (2 : Nat) ^ 1 ≤ 2 ^ k := Nat.pow_le_pow_right (by decide) hk1
  have hall : ∀ b, b &&& computeMask gnuc (2 ^ k) < 2 ^ k := by
    intro b
    rw [hmask]
    exact land_two_pow_lt k b
  have hall64 : ∀ b : Nat, b &&& 63 < 64 := fun b => Nat.lt_succ_of_le Nat.and_le_right
  have hmask2 : computeMask gnuc 2 = 1 := computeMask_two_pow gnuc 1 (by decide) (by decide)
  have hall2 : ∀ b : Nat, b &&& 1 < 2 := fun b => Nat.lt_succ_of_le Nat.and_le_right
  refine ⟨hmask, computeMask_64 gnuc, hall, ?_, ?_, ?_, ?_, ⟨?_, by omega, by omega⟩, ?_⟩
  · intro b
    rw [computeMask_64]
    exact hall64 b
  · intro bs
    rw [referenceSymbols_of_all a _ _ hall bs, hmask]
  · rw [generate_r_valid gnuc stack L a (2 ^ k) _ (by simpa using hge)
      (by norm_num at hle; omega),
      whileLoop_all_accepted a _ _ L hL hL64 hall stack blocks hblk hen, hmask]
  · intro cnt
    rw [generate_r_null, computeMask_64,
      whileLoop_all_accepted default_alphabet 64 63 L hL hL64 hall64 stack blocks hblk hen]
  · simp only [List.length_map, List.length_drop]
    omega
  · rw [generate_r_valid gnuc stack L [97, 98] 2 _ (by decide) (by decide), hmask2,
      whileLoop_all_accepted [97, 98] 2 1 L hL hL64 hall2 stack blocks hblk hen]
    have hfun : (fun b => [97, 98].getD (b &&& 1) 0) =
        (fun b => if b % 2 = 0 then 97 else 98) := funext ab_select
    rw [hfun]

/-- Witness for C11: the alphabet `abcd` (count 4, mask 3), length 3, one block
of bytes `0..31`: the bytes 0, 1, 2 select `a`, `b`, `c`, and one block is
consumed. -/
theorem power_of_two_no_discard_witness :
    nanoid_generate_r true (List.replicate 32 0) 3 (some [97, 98, 99, 100]) (2 ^ 2)
        ([List.range 32].map SysOutcome.filled) =
      some
        { ok := true
          writes := List.enumFrom 0
            (([List.range 32].flatten.take 3).map
              (fun b => [97, 98, 99, 100].getD (b &&& (2 ^ 2 - 1)) 0))
          rest := ([List.range 32].drop ((3 + 31) / 32)).map SysOutcome.filled } ∧
    List.enumFrom 0
        (([List.range 32].flatten.take 3).map
          (fun b => [97, 98, 99, 100].getD (b &&& (2 ^ 2 - 1)) 0)) =
      [(0, 97), (1, 98), (2, 99)] :=
  ⟨(power_of_two_no_discard true (List.replicate 32 0) 3 [97, 98, 99, 100] 2 [List.range 32]
      (by decide) (by decide) (by decide) (by decide) (by decide) (by decide)).2.2.2.2.2.1,
   by decide⟩

/-- C12: for a count `2 ≤ A ≤ 255` with mask `M`, `M + 1 < 2 * A`; hence more
than 128 of the 256 byte values pass the test `(b & M) < A`, fewer than 128 are
rejected, and the rejected ones are at most half of the 256. -/
theorem rejection_at_most_half (gnuc : Bool) (A : Nat) (h2 : 2 ≤ A) (h255 : A ≤ 255) :
    computeMask gnuc A + 1 < 2 * A ∧
    128 < Nat.count (fun b => b &&& computeMask gnuc A < A) 256 ∧
    Nat.count (fun b => A ≤ b &&& computeMask gnuc A) 256 < 128 ∧
    2 * Nat.count (fun b => A ≤ b &&& computeMask gnuc A) 256 ≤ 256 := by
  obtain ⟨hm, hk, _⟩ := computeMask_eq gnuc A h2 h255
  have hpos : 0 < 2 ^ ((A - 1).log2 + 1) := Nat.two_pow_pos _
  have hge : 2 ^ (A - 1).log2 ≤ A - 1 := Nat.log2_self_le (by omega)
  have hlt : A - 1 < 2 ^ ((A - 1).log2 + 1) := Nat.lt_log2_self
  have hsucc : 2 ^ ((A - 1).log2 + 1) = 2 * 2 ^ (A - 1).log2 := by
    rw [pow_succ, mul_comm]
  have hM : computeMask gnuc A + 1 < 2 * A := by omega
  have hdvd : 2 ^ ((A - 1).log2 + 1) ∣ 256 := by
    have : (2 : Nat) ^ ((A - 1).log2 + 1) ∣ 2 ^ 8 := Nat.pow_dvd_pow 2 hk
    simpa using this
  have hmul : 2 ^ ((A - 1).log2 + 1) * (256 / 2 ^ ((A - 1).log2 + 1)) = 256 :=
    Nat.mul_div_cancel' hdvd
  have hcpos : 0 < 256 / 2 ^ ((A - 1).log2 + 1) := by
    rcases Nat.eq_zero_or_pos (256 / 2 ^ ((A - 1).log2 + 1)) with h0 | h0
    · rw [h0] at hmul; omega
    · exact h0
  have hacc : Nat.count (fun b => b &&& computeMask gnuc A < A) 256 =
      A * (256 / 2 ^ ((A - 1).log2 + 1)) := by
    rw [hm]
    exact countP_land_lt _ A hk (by omega)
  have hbig : 256 < 2 * (A * (256 / 2 ^ ((A - 1).log2 + 1))) := by
    have h1 : 2 ^ ((A - 1).log2 + 1) * (256 / 2 ^ ((A - 1).log2 + 1)) <
        2 * A * (256 / 2 ^ ((A - 1).log2 + 1)) :=
      Nat.mul_lt_mul_of_pos_right (by omega) hcpos
    rw [hmul, Nat.mul_assoc] at h1
    exact h1
  have hlen := List.length_eq_countP_add_countP
    (fun b => decide (b &&& computeMask gnuc A < A)) (List.range 256)
  rw [List.length_range] at hlen
  have e1 : Nat.count (fun b => b &&& computeMask gnuc A < A) 256 =
      (List.range 256).countP (fun b => decide (b &&& computeMask gnuc A < A)) := rfl
  have e2 : Nat.count (fun b => A ≤ b &&& computeMask gnuc A) 256 =
      (List.range 256).countP
        (fun b => decide ¬ (decide (b &&& computeMask gnuc A < A) = true)) := by
    unfold Nat.count
    apply List.countP_congr
    intro b _
    simp
  refine ⟨hM, by omega, by omega, by omega⟩

/-- Witness for C12: the count 129 has mask 255; 129 byte values are accepted. -/
theorem rejection_at_most_half_witness :
    computeMask true 129 + 1 < 2 * 129 ∧
    128 < Nat.count (fun b => b &&& computeMask true 129 < 129) 256 :=
  ⟨(rejection_at_most_half true 129 (by decide) (by decide)).1,
   (rejection_at_most_half true 129 (by decide) (by decide)).2.1⟩

/-- C13: the length is not checked.  For a supplied alphabet with a count in
`2..255` (and likewise for `NULL`) a call of `nanoid_generate_r` with
`buflen = 0` enters the generation loop; an accepted byte is stored at index 0
and the cursor becomes 1 before the test `len == buflen`, which fails; while
fewer than `2 ^ 64` bytes have been accepted the call is still looping, every
accepted byte having been stored at the next index from 0 on; a call that
returns has made exactly `2 ^ 64` stores, so it never returns an empty
identifier.  The Lua binding passes a length argument 0 on to this path, with
a supplied or with the default alphabet; the command line tool refuses a length
0 before it calls the generator. -/
theorem zero_length_never_empty (gnuc : Bool) (stack : List Nat) (a : List Nat) (A : Nat)
    (rand : List SysOutcome) (h2 : 2 ≤ A) (h255 : A ≤ 255) :
    nanoid_generate_r gnuc stack 0 (some a) A rand =
      whileLoop a A (computeMask gnuc A) 0 rand stack { len := 0, writes := [] } ∧
    (∀ bytes n i, bytes.getD i 0 &&& computeMask gnuc A < A →
      forLoop a A (computeMask gnuc A) 0 bytes (n + 1) i { len := 0, writes := [] } =
        forLoop a A (computeMask gnuc A) 0 bytes n (i + 1)
          { len := 1, writes := [(0, a.getD (bytes.getD i 0 &&& computeMask gnuc A) 0)] }) ∧
    ((referenceSymbols a A (computeMask gnuc A) (windows stack rand).flatten).length < 2 ^ 64 →
      nanoid_generate_r gnuc stack 0 (some a) A rand = none ∧
      runPasses a A (computeMask gnuc A) 0 rand stack { len := 0, writes := [] } =
        .exhausted
          { len := (referenceSymbols a A (computeMask gnuc A) (windows stack rand).flatten).length
            writes := List.enumFrom 0
              (referenceSymbols a A (computeMask gnuc A) (windows stack rand).flatten) }) ∧
    (∀ r, nanoid_generate_r gnuc stack 0 (some a) A rand = some r →
      2 ^ 64 ≤ (referenceSymbols a A (computeMask gnuc A) (windows stack rand).flatten).length ∧
      r.ok = true ∧
      r.writes = List.enumFrom 0
        ((referenceSymbols a A (computeMask gnuc A) (windows stack rand).flatten).take
          (2 ^ 64)) ∧
      r.writes.length = 2 ^ 64 ∧ r.writes ≠ []) ∧
    (2 ^ 64 ≤ (referenceSymbols a A (computeMask gnuc A) (windows stack rand).flatten).length →
      ∃ r, nanoid_generate_r gnuc stack 0 (some a) A rand = some r) ∧
    (∀ cnt, nanoid_generate_r gnuc stack 0 none cnt rand =
      nanoid_generate_r gnuc stack 0 (some default_alphabet) 64 rand) ∧
    (∀ buf, A = a.length →
      (referenceSymbols a A (computeMask gnuc A) (windows stack rand).flatten).length < 2 ^ 64 →
      l_generate gnuc stack (some 0) (some a) (some buf) rand = CallerResult.looping) ∧
    (∀ buf, 32 * rand.length < 2 ^ 64 →
      l_generate gnuc stack (some 0) none (some buf) rand = CallerResult.looping) ∧
    (∀ optA p heap, p.value = 0 →
      cmd_generate gnuc stack optA (some p) heap rand =
        CallerResult.failed Failure.invalidLength) := by
  have hgen := generate_r_valid gnuc stack 0 a A rand h2 h255
  obtain ⟨hloop, hret⟩ := whileLoop_zero a A (computeMask gnuc A) rand stack
  refine ⟨hgen, ?_, ?_, ?_, ?_, ?_, ?_, ?_, ?_⟩
  · intro bytes n i hacc
    rw [forLoop]
    have hge : ¬ (bytes.getD i 0 &&& computeMask gnuc A ≥ A) := by omega
    simp only [hge, if_false, Nat.zero_add, List.nil_append]
    rw [if_neg (by decide)]
    rfl
  · intro h
    rw [hgen]
    exact hloop h
  · intro r hr
    rw [hgen] at hr
    by_cases hc : (referenceSymbols a A (computeMask gnuc A) (windows stack rand).flatten).length
        < 2 ^ 64
    · rw [(hloop hc).1] at hr
      exact absurd hr (by simp)
    · have hc : 2 ^ 64 ≤
          (referenceSymbols a A (computeMask gnuc A) (windows stack rand).flatten).length := by
        omega
      obtain ⟨r2, hr2⟩ := hret hc
      rw [hr2] at hr
      simp only [Option.some.injEq] at hr
      subst hr
      have hlen : (List.enumFrom 0
          ((referenceSymbols a A (computeMask gnuc A) (windows stack rand).flatten).take
            (2 ^ 64))).length = 2 ^ 64 := by
        rw [List.enumFrom_length, List.length_take]
        omega
      refine ⟨hc, rfl, rfl, hlen, ?_⟩
      intro hnil
      have hnil2 : List.enumFrom 0
          ((referenceSymbols a A (computeMask gnuc A) (windows stack rand).flatten).take
            (2 ^ 64)) = [] := hnil
      rw [hnil2] at hlen
      simp at hlen
  · intro h
    obtain ⟨r2, hr2⟩ := hret h
    exact ⟨_, by rw [hgen]; exact hr2⟩
  · intro cnt
    rw [generate_r_null, generate_r_valid gnuc stack 0 default_alphabet 64 rand (by decide)
      (by decide)]
  · intro buf hA h
    have hnone : nanoid_generate_r gnuc stack 0 (some a) a.length rand = none := by
      rw [← hA, hgen]
      exact (hloop h).1
    simp [l_generate, hnone]
  · intro buf hlen
    have hall : ∀ b : Nat, b &&& 63 < 64 := fun b => Nat.lt_succ_of_le Nat.and_le_right
    have hcount := referenceSymbols_length_of_all default_alphabet 64 63 hall
      (windows stack rand).flatten
    rw [windows_flatten_length] at hcount
    have hnone : nanoid_generate_r gnuc stack 0 none 0 rand = none := by
      rw [generate_r_null, computeMask_64]
      exact ((whileLoop_zero default_alphabet 64 63 rand stack).1 (by rw [hcount]; exact hlen)).1
    simp [l_generate, hnone]
  · intro optA p heap hp
    simp [cmd_generate, hp]

/-- Witness for C13: the alphabet `abc`, `buflen = 0`, one block of bytes
`0..31`: the call has not returned, and the 24 accepted bytes have been stored
at the indices `0..23`; the Lua binding called with length 0 is on this path,
and the command line tool refuses `-l 0`. -/
theorem zero_length_never_empty_witness :
    (nanoid_generate_r true (List.replicate 32 0) 0 (some [97, 98, 99]) 3
        [SysOutcome.filled (List.range 32)] = none ∧
      runPasses [97, 98, 99] 3 (computeMask true 3) 0 [SysOutcome.filled (List.range 32)]
          (List.replicate 32 0) { len := 0, writes := [] } =
        .exhausted
          { len := (referenceSymbols [97, 98, 99] 3 (computeMask true 3)
              (windows (List.replicate 32 0) [SysOutcome.filled (List.range 32)]).flatten).length
            writes := List.enumFrom 0
              (referenceSymbols [97, 98, 99] 3 (computeMask true 3)
                (windows (List.replicate 32 0)
                  [SysOutcome.filled (List.range 32)]).flatten) }) ∧
    runPasses [97, 98, 99] 3 (computeMask true 3) 0 [SysOutcome.filled (List.range 32)]
        (List.replicate 32 0) { len := 0, writes := [] } =
      .exhausted
        { len := 24
          writes := List.enumFrom 0 (List.replicate 8 [97, 98, 99]).flatten } ∧
    l_generate true (List.replicate 32 0) (some 0) none (some [])
        [SysOutcome.filled (List.range 32)] = CallerResult.looping ∧
    cmd_generate true (List.replicate 32 0) none
        (some { value := 0, endAtStart := false, endChar := 0 }) (some [])
        [SysOutcome.filled (List.range 32)] = CallerResult.failed Failure.invalidLength :=
  ⟨(zero_length_never_empty true (List.replicate 32 0) [97, 98, 99] 3
      [SysOutcome.filled (List.range 32)] (by decide) (by decide)).2.2.1 (by decide),
   by decide, by decide, by decide⟩

end Nanoid
